import Mathlib

/-!
Verification development for the AMPES event-series generator
(`src/AMPES.py`, with the `src/AMTech.py` and `src/AM_Tech.py` variants).

The Python source is shallowly embedded over `ℚ`: Python floats become
rationals, Python lists become `List`s, and the in-place numpy updates
become functional recomputations of the same arrays.  `math.sqrt` is the
single irrational operation of the pipeline; it is abstracted as an
explicit function parameter `sqrtFn : ℚ → ℚ` (theorems that need it only
assume `0 ≤ q → 0 ≤ sqrtFn q`, which holds for the real square root).
Fallible Python operations (IndexError, KeyError, NameError,
ZeroDivisionError, `exit(...)`) are embedded with `Option`/`Except`.
-/

namespace AMPES

/-! ### `get_idx_from_ranges` and Python comparison semantics

`get_idx_from_ranges` (AMPES.py:108-112) returns the `int` position of the
first range containing `num`, and the Python *bool* `False` when no range
contains it.  Python unifies `bool` with `int` (`False` has numeric value
`0`), which is what callers see when they compare the result with `-1` or
use it as a list index.  `PyRet` models that returned value exactly. -/

inductive PyRet where
  | idx : ℕ → PyRet
  | pyFalse : PyRet
deriving DecidableEq, Repr

/-- The numeric value Python gives the return of `get_idx_from_ranges`:
an `int` is itself, the bool `False` is `0`. -/
def PyRet.toInt : PyRet → ℤ
  | .idx i => (i : ℤ)
  | .pyFalse => 0

/-- Python's `group_idx == -1` on the returned value. -/
def pyEqNegOne (r : PyRet) : Bool := decide (r.toInt = -1)

/-- Python's `group_idx == 0` on the returned value (`False == 0` is `True`). -/
def pyEqZero (r : PyRet) : Bool := decide (r.toInt = 0)

/-- Python's `layer_group_list[group_idx]` index (non-negative here, since
the returned int comes from `range(len(ranges))` and `False` indexes as `0`). -/
def PyRet.toIndex (r : PyRet) : ℕ := r.toInt.toNat

/-- Membership `num in range(lo, hi)` for a Python `range` object,
represented by the pair `(lo, hi)`. -/
def inPyRange (num : ℤ) (r : ℤ × ℤ) : Bool := decide (r.1 ≤ num) && decide (num < r.2)

/-- The linear scan of `get_idx_from_ranges`, carrying the running index. -/
def getIdxGo (num : ℤ) : ℕ → List (ℤ × ℤ) → PyRet
  | _, [] => PyRet.pyFalse
  | i, r :: rs => if inPyRange num r then PyRet.idx i else getIdxGo num (i + 1) rs

/-- AMPES.py:108-112 (identical in AMTech.py:80-84 and AM_Tech.py):
scan the ranges in order, return the first matching position, and return
`False` when none matches. -/
def get_idx_from_ranges (num : ℤ) (ranges : List (ℤ × ℤ)) : PyRet :=
  getIdxGo num 0 ranges

/-! ### Power perturbation

`perturb` (AMPES.py:28-57) draws a random array `vals` of the shape of the
input, scales it by `dev`, zeroes it wherever the input power is `0`, and
returns `input + vals`.  The random draw is embedded as the explicit list
`draws` (one draw per sample, as `rng.normal/integers/uniform` with
`size=arr.shape` produce).  The scheme tag is a Python string compared
against three literals; any other string falls to the `else` branch. -/

inductive Scheme where
  | gaussian | strict | uniform | other
deriving DecidableEq, Repr

/-- `vals[input_arr==0] = 0` (AMPES.py:45,49,53). -/
def maskZeros (input vals : List ℚ) : List ℚ :=
  List.zipWith (fun a v => if a = 0 then 0 else v) input vals

/-- AMPES.py:28-57. -/
def perturb (input : List ℚ) (dev : ℚ) (scheme : Scheme) (draws : List ℚ) : List ℚ :=
  let vals :=
    match scheme with
    | .gaussian => maskZeros input (draws.map (fun v => v * dev))
    | .strict => maskZeros input (draws.map (fun v => v * dev))
    | .uniform => maskZeros input (draws.map (fun v => v * dev))
    | .other => List.replicate input.length 0
  List.zipWith (fun a v => a + v) input vals

end AMPES

namespace AMTech

/-- AMTech.py:52-78: same structure as `AMPES.perturb`, but with *no*
`vals[input_arr==0] = 0` masking in any branch. -/
def perturb (input : List ℚ) (dev : ℚ) (scheme : AMPES.Scheme) (draws : List ℚ) : List ℚ :=
  let vals :=
    match scheme with
    | .gaussian => draws.map (fun v => v * dev)
    | .strict => draws.map (fun v => v * dev)
    | .uniform => draws.map (fun v => v * dev)
    | .other => List.replicate input.length 0
  List.zipWith (fun a v => a + v) input vals

end AMTech

namespace AMPES

/-! ### Configuration model

`layer_groups` (AMPES.py:214-256): an ordered list of groups, each with an
optional `layers` range `[first, last]`, `infill`/`contour` sections
(required `base_speed` for the first group, optional `output_speed`,
`power`), and an `interlayer_dwell`.  `group_flag` (AMPES.py:218) is set
when there is more than one group or the first group carries an explicit
`layers` range.  `intervals` (AMPES.py:221) turns each group's `layers`
pair into the Python range `range(first-1, last+1)`. -/

structure SectionCfg where
  base_speed : ℚ
  output_speed : Option ℚ
  secPower : ℚ
deriving DecidableEq, Repr

structure LayerGroup where
  layers : Option (ℤ × ℤ)
  infill : SectionCfg
  contour : SectionCfg
  interlayer_dwell : ℚ
deriving DecidableEq, Repr

structure Config where
  layer_group_list : List LayerGroup
  interval : ℕ
  layer_height : ℚ
  dwell : Bool
  roller : Bool
  w_dwell : ℚ
  time_series : Bool
deriving DecidableEq, Repr

/-- AMPES.py:218: more than one group, or an explicit `layers` key on the
first group. -/
def group_flag (cfg : Config) : Bool :=
  decide (1 < cfg.layer_group_list.length) ||
    (match cfg.layer_group_list.head? with
     | some g => g.layers.isSome
     | none => false)

/-- AMPES.py:221: `range(layers[0]-1, layers[1]+1)` per group; `none` when
a group has no `layers` key (Python raises KeyError and the run exits). -/
def intervalsOf (cfg : Config) : Option (List (ℤ × ℤ)) :=
  cfg.layer_group_list.mapM (fun g => g.layers.map (fun p => (p.1 - 1, p.2 + 1)))

/-! ### Segment interpolation (AMPES.py:383-468)

State of the output-population loop.  `jump_idxs` is proof instrumentation
only: it records, for each layer jump, the length of `t_out` at the moment
the two jump points are appended — that is, the index of the *first* of the
two appended points.  It is written exactly where the jump append happens
and read by no part of the embedded pipeline. -/

structure InterpState where
  x_out : List ℚ
  y_out : List ℚ
  z_out : List ℚ
  power_out : List ℚ
  t_out : List ℚ
  time : ℚ
  z_coord : ℚ
  j : ℕ
  vel : Option ℚ
  jump_idxs : List ℕ
deriving DecidableEq, Repr

/-- `np.linspace(a, b, n)`: `n` evenly spaced points from `a` to `b`
inclusive.  For `n = 1` the `(n-1)`-division is `0/0 = 0` in `ℚ`, giving
`[a]`, which also matches numpy. -/
def linspace (a b : ℚ) (n : ℕ) : List ℚ :=
  (List.range n).map (fun (k : ℕ) => a + (b - a) * (k : ℚ) / ((n : ℚ) - 1))

/-- AMPES.py:393-412: per-iteration speed resolution when layer grouping is
active.  `get_idx_from_ranges(j-2, intervals)` is consulted; a `== -1`
result would break the loop (it never does, `pyEqNegOne_eq_false`);
otherwise the group is indexed with the returned value (`False` indexes as
group `0`).  Group `0` falls back from `output_speed` to `base_speed`;
later groups read `output_speed` directly (KeyError when absent). -/
inductive SpeedOut where
  | brkOut
  | errOut
  | okOut (infill_speed contour_speed : ℚ)
deriving DecidableEq, Repr

def groupSpeeds (cfg : Config) (gi : PyRet) : Option (ℚ × ℚ) :=
  match cfg.layer_group_list.get? gi.toIndex with
  | none => none
  | some g =>
    if pyEqZero gi then
      some (g.infill.output_speed.getD g.infill.base_speed,
            g.contour.output_speed.getD g.contour.base_speed)
    else
      match g.infill.output_speed, g.contour.output_speed with
      | some a, some b => some (a, b)
      | _, _ => none

def resolveSpeeds (cfg : Config) (intervals : List (ℤ × ℤ)) (isp0 csp0 : ℚ) (j : ℕ) :
    SpeedOut :=
  if group_flag cfg then
    let gi := get_idx_from_ranges ((j : ℤ) - 2) intervals
    if pyEqNegOne gi then SpeedOut.brkOut
    else
      match groupSpeeds cfg gi with
      | none => SpeedOut.errOut
      | some (a, b) => SpeedOut.okOut a b
  else SpeedOut.okOut isp0 csp0

/-- AMPES.py:414-447: advance one segment.  Computes the planar distance
through `sqrtFn`, picks the velocity by the segment's recorded F value
(keeping the previous `vel` when neither nominal value matches, failing
like Python's NameError when `vel` was never assigned, and like
ZeroDivisionError on a zero velocity), interpolates `interval+2` samples
and concatenates them after dropping the running arrays' trailing point. -/
def segAdvance (sqrtFn : ℚ → ℚ) (interval : ℕ) (isp csp infill_f contour_f : ℚ)
    (x y f power : List ℚ) (i : ℕ) (s : InterpState) : Option InterpState := do
  let xi1 ← x.get? (i - 1)
  let xi ← x.get? i
  let yi1 ← y.get? (i - 1)
  let yi ← y.get? i
  let fi ← f.get? i
  let pi ← power.get? i
  let del_d := sqrtFn ((xi - xi1) ^ 2 + (yi - yi1) ^ 2)
  let vel ← if fi = infill_f then some isp else if fi = contour_f then some csp else s.vel
  if vel = 0 then none
  else
    let del_t := del_d / vel
    let n := interval + 2
    some { s with
      x_out := s.x_out.dropLast ++ linspace xi1 xi n
      y_out := s.y_out.dropLast ++ linspace yi1 yi n
      z_out := s.z_out.dropLast ++ List.replicate n s.z_coord
      power_out := s.power_out.dropLast ++ List.replicate n pi
      t_out := s.t_out.dropLast ++ linspace s.time (s.time + del_t) n
      time := s.time + del_t
      vel := some vel }

/-- AMPES.py:452-468: the layer-jump append.  Both points copy the trailing
x/y/t values, power is `0`, z goes from the trailing z to that plus one
layer height; `j` advances and `jump_idxs` records the index at which the
first of the two points lands. -/
def jumpAppend (layer_height : ℚ) (s : InterpState) : InterpState :=
  let curr_z := s.z_out.getD (s.z_out.length - 1) 0
  { s with
    x_out := s.x_out ++ List.replicate 2 (s.x_out.getD (s.x_out.length - 1) 0)
    y_out := s.y_out ++ List.replicate 2 (s.y_out.getD (s.y_out.length - 1) 0)
    z_out := s.z_out ++ [curr_z, curr_z + layer_height]
    power_out := s.power_out ++ [0, 0]
    t_out := s.t_out ++ List.replicate 2 (s.t_out.getD (s.t_out.length - 1) 0)
    z_coord := s.z_coord + layer_height
    j := s.j + 1
    jump_idxs := s.jump_idxs ++ [s.t_out.length] }

inductive StepRes where
  | cont (s : InterpState)
  | brk (s : InterpState)
  | err
deriving DecidableEq, Repr

/-- One iteration of the loop `for i in range(1, len(x))` (AMPES.py:392-468). -/
def interpStep (cfg : Config) (sqrtFn : ℚ → ℚ) (intervals : List (ℤ × ℤ))
    (isp0 csp0 infill_f contour_f : ℚ) (x y f power : List ℚ) (z_posl : List ℕ)
    (i : ℕ) (s : InterpState) : StepRes :=
  match resolveSpeeds cfg intervals isp0 csp0 s.j with
  | .brkOut => StepRes.brk s
  | .errOut => StepRes.err
  | .okOut isp csp =>
    match segAdvance sqrtFn cfg.interval isp csp infill_f contour_f x y f power i s with
    | none => StepRes.err
    | some s1 =>
      if s1.j < z_posl.length ∧ (i : ℤ) = (z_posl.getD s1.j 0 : ℤ) - 1 then
        StepRes.cont (jumpAppend cfg.layer_height s1)
      else StepRes.cont s1

/-- Run the loop body over a list of indices; `brk` ends the loop keeping
the current state, a failed body aborts the run. -/
def interpFold (step : ℕ → InterpState → StepRes) : List ℕ → InterpState → Option InterpState
  | [], s => some s
  | i :: idxs, s =>
    match step i s with
    | .cont s' => interpFold step idxs s'
    | .brk s' => some s'
    | .err => none

/-- AMPES.py:383-468 end to end: config preprocessing (first group's
nominal F values AMPES.py:228-229/241-242, single-group output speeds
AMPES.py:248-256, `intervals` when grouping is active), the initial arrays
`[x[0]] [y[0]] [z[1]] [0] [time]` with `z_coord = z[1]` and `j = 2`, then
the interpolation loop over `range(1, len(x))`. -/
def interpRun (cfg : Config) (sqrtFn : ℚ → ℚ) (x y z f power : List ℚ)
    (z_posl : List ℕ) : Option InterpState :=
  match cfg.layer_group_list.head? with
  | none => none
  | some g0 =>
    let infill_f := g0.infill.base_speed * 60
    let contour_f := g0.contour.base_speed * 60
    let isp0 := g0.infill.output_speed.getD g0.infill.base_speed
    let csp0 := g0.contour.output_speed.getD g0.contour.base_speed
    match (if group_flag cfg then intervalsOf cfg else some []) with
    | none => none
    | some intervals =>
      match x.get? 0, y.get? 0, z.get? 1 with
      | some x0, some y0, some z1 =>
        interpFold
          (interpStep cfg sqrtFn intervals isp0 csp0 infill_f contour_f x y f power z_posl)
          (List.range' 1 (x.length - 1))
          { x_out := [x0], y_out := [y0], z_out := [z1], power_out := [0], t_out := [0]
            time := 0, z_coord := z1, j := 2, vel := none, jump_idxs := [] }
      | _, _, _ => none

/-- AMPES.py:472: the layer-jump index list
`[(z_posl[i]-1)*(interval+1)+(i-1)*2 for i in range(2, len(z_posl))]`. -/
def z_inc_arr (interval : ℕ) (z_posl : List ℕ) : List ℤ :=
  (List.range' 2 (z_posl.length - 2)).map
    (fun i => ((z_posl.getD i 0 : ℤ) - 1) * ((interval : ℤ) + 1) + ((i : ℤ) - 1) * 2)

/-! ### Dwell injection (AMPES.py:470-487)

`t_out[k:] += d` with Python slice semantics: a negative start counts from
the end (clamped at `0`), a start past the end selects nothing. -/

def pySliceStart (k : ℤ) (len : ℕ) : ℕ :=
  if 0 ≤ k then min k.toNat len else len - (-k).toNat

def sliceAdd (t : List ℚ) (k : ℤ) (d : ℚ) : List ℚ :=
  t.take (pySliceStart k t.length) ++ (t.drop (pySliceStart k t.length)).map (fun a => a + d)

/-- AMPES.py:479-485: `for i in range(len(z_inc_arr)): t_out[z_inc_arr[i]:] += dwell(i)`.
`dwellOf` abstracts how iteration `i` resolves its dwell: the constant
`interlayer_dwell` when grouping is off, and
`layer_group_list[get_idx_from_ranges(i, intervals)]["interlayer_dwell"]`
when it is on (`dwellOfGroups`); the loop's `== -1` break is dead code by
`pyEqNegOne_eq_false`. -/
def dwellAdjust (t0 : List ℚ) (jumps : List ℤ) (dwellOf : ℕ → ℚ) : List ℚ :=
  (List.range jumps.length).foldl (fun t i => sliceAdd t (jumps.getD i 0) (dwellOf i)) t0

/-- AMPES.py:481-484 (the index is always valid: `False` indexes as `0` and
found indices are positions in `intervals`, which has the length of
`layer_group_list`; the `dflt` branch is unreachable then). -/
def dwellOfGroups (groups : List LayerGroup) (intervals : List (ℤ × ℤ)) (dflt : ℚ) (i : ℕ) : ℚ :=
  match groups.get? (get_idx_from_ranges (i : ℤ) intervals).toIndex with
  | some g => g.interlayer_dwell
  | none => dflt

def dwellSelector (cfg : Config) : ℕ → ℚ :=
  let dflt := (cfg.layer_group_list.head?.map (fun g => g.interlayer_dwell)).getD 0
  if group_flag cfg then dwellOfGroups cfg.layer_group_list ((intervalsOf cfg).getD []) dflt
  else fun _ => dflt

/-- AMPES.py:477-485: the whole-series roller shift `t_out += w_dwell`
followed by the per-jump suffix shifts. -/
def applyDwell (roller : Bool) (w_dwell : ℚ) (t : List ℚ) (jumps : List ℤ)
    (dwellOf : ℕ → ℚ) : List ℚ :=
  dwellAdjust (if roller then t.map (fun a => a + w_dwell) else t) jumps dwellOf

/-- AMPES.py:475-487: the timestamp column after the dwell stage (the
stages after it never write `t_out`). -/
def finalT (cfg : Config) (t : List ℚ) (jumps : List ℤ) : List ℚ :=
  if cfg.dwell then applyDwell cfg.roller cfg.w_dwell t jumps (dwellSelector cfg) else t

/-! ### Roller / wiper series (AMPES.py:491-510, writer 539-549) -/

/-- Python `l[i]` with negative-index wraparound and IndexError as `none`. -/
def pyGet (l : List ℚ) (i : ℤ) : Option ℚ :=
  if 0 ≤ i then l.get? i.toNat
  else if (-i).toNat ≤ l.length then l.get? (l.length - (-i).toNat)
  else none

/-- AMPES.py:493-502: `t_roller = [t_out[0]]`, then for each jump index `i`
append `t_out[i]` to `t_roller` and `z_out[i+2]` to `z_roller`; after the
loop append `t_out[i]` once more (NameError when there was no jump), and
prepend `z_out[0]` to `z_roller`. -/
def buildRoller (t_out z_out : List ℚ) (jumps : List ℤ) : Option (List ℚ × List ℚ) := do
  let t0 ← pyGet t_out 0
  let tr ← jumps.mapM (fun i => pyGet t_out i)
  let zr ← jumps.mapM (fun i => pyGet z_out (i + 2))
  let lastJump ← jumps.getLast?
  let tLast ← pyGet t_out lastJump
  let z0 ← pyGet z_out 0
  some ((t0 :: tr) ++ [tLast], z0 :: zr)

/-- AMPES.py:504-510: every `t_roller[i]` with `i < len-1` becomes the pair
`(t_roller[i]-w_dwell, t_roller[i])`, the last index becomes `(None, None)`,
and `[:-2]` cuts those two `None`s; every `z_roller` entry is doubled. -/
def buildWiper (t_roller z_roller : List ℚ) (w : ℚ) : List (Option ℚ) × List ℚ :=
  let n := t_roller.length
  let tw := ((List.range n).map (fun i =>
    if i < n - 1 then [some (t_roller.getD i 0 - w), some (t_roller.getD i 0)]
    else [(none : Option ℚ), none])).flatten
  (tw.take (tw.length - 2), (z_roller.map (fun a => [a, a])).flatten)

/-- AMPES.py:543-549: the roller writer emits, for each index of `z_wiper`,
a row `(t_wiper[i], z_wiper[i], state)` with state `1.0` (engaged) at even
`i` and `0.0` (retracted) at odd `i`.  The serialization-only rounding and
the fixed x/y columns are out of the core's scope. -/
def rollerRows (t_wiper : List (Option ℚ)) (z_wiper : List ℚ) : List (Option ℚ × ℚ × ℚ) :=
  (List.range z_wiper.length).map
    (fun i => (t_wiper.getD i none, z_wiper.getD i 0, if i % 2 = 0 then 1 else 0))

/-! ### Gcode parsing (AMPES.py:330-378)

A movement line (one that passed the `startswith("G1"/"G0")` filter) is
embedded as its list of regex-matched tokens; `"X" in "".join(line)` and
`"E" in "".join(line)` hold exactly when an X / E token is present (for
lines made of the opcode word plus matched tokens, no other word of such a
line contains the letters X or E). -/

inductive Tok where
  | X (v : ℚ)
  | Y (v : ℚ)
  | Z (v : ℚ)
  | F (v : ℚ)
  | E (v : ℚ)
deriving DecidableEq, Repr

def isXTok : Tok → Bool
  | .X _ => true
  | _ => false

def isETok : Tok → Bool
  | .E _ => true
  | _ => false

def hasX (toks : List Tok) : Bool := toks.any isXTok

def hasE (toks : List Tok) : Bool := toks.any isETok

/-- Python errors surfaced by the reading loop: an undefined name
(`curr_f` / `group_idx` before first assignment), a bad list index, and the
`exit(...)` on an unexpected F value (AMPES.py:376). -/
inductive PErr where
  | nameError
  | indexError
  | keyError
  | fValueError
deriving DecidableEq, Repr

structure ParseState where
  x : List ℚ
  y : List ℚ
  z : List ℚ
  f : List ℚ
  z_posl : List ℕ
  power : List ℚ
  z_pos : ℕ
  curr_f : Option ℚ
  group_idx : Option PyRet
deriving DecidableEq, Repr

def initParseState : ParseState :=
  ⟨[], [], [], [], [], [], 0, none, none⟩

/-- AMPES.py:346-363: the `for item in line` loop.  An X token appends the
coordinate, records the current F value (NameError when none was ever set)
and bumps `z_pos`; a Z token appends to `z` and, under grouping, consults
`get_idx_from_ranges(len(z)-1, intervals)` — a `== -1` result would break
out of the token loop; an F token updates `curr_f`; E tokens match the
regex but hit no branch. -/
def tokLoop (gflag : Bool) (intervals : List (ℤ × ℤ)) :
    ParseState → List Tok → Except PErr ParseState
  | s, [] => Except.ok s
  | s, Tok.X v :: ts =>
    match s.curr_f with
    | none => Except.error PErr.nameError
    | some cf =>
      tokLoop gflag intervals
        { s with x := s.x ++ [v], f := s.f ++ [cf], z_pos := s.z_pos + 1 } ts
  | s, Tok.Y v :: ts => tokLoop gflag intervals { s with y := s.y ++ [v] } ts
  | s, Tok.Z v :: ts =>
    let s1 := { s with z := s.z ++ [v] }
    if gflag then
      let gi := get_idx_from_ranges ((s1.z.length : ℤ) - 1) intervals
      let s2 := { s1 with group_idx := some gi }
      if pyEqNegOne gi then Except.ok s2
      else tokLoop gflag intervals { s2 with z_posl := s2.z_posl ++ [s2.z_pos] } ts
    else tokLoop gflag intervals { s1 with z_posl := s1.z_posl ++ [s1.z_pos] } ts
  | s, Tok.F v :: ts => tokLoop gflag intervals { s with curr_f := some v } ts
  | s, Tok.E _ :: ts => tokLoop gflag intervals s ts

/-- AMPES.py:366-378: power classification of a line.  Under grouping the
powers come from `layer_group_list[group_idx]` (NameError before any Z,
IndexError on an out-of-range found index); the active F value must be one
of the two nominal values, otherwise the run exits. -/
def classifyPower (cfg : Config) (gflag : Bool) (infill_f contour_f ip0 cp0 : ℚ)
    (toks : List Tok) (s : ParseState) : Except PErr ParseState :=
  if hasX toks then
    if hasE toks then
      match
        (if gflag then
          match s.group_idx with
          | none => Except.error PErr.nameError
          | some gi =>
            match cfg.layer_group_list.get? gi.toIndex with
            | none => Except.error PErr.indexError
            | some g => Except.ok (g.infill.secPower, g.contour.secPower)
        else Except.ok (ip0, cp0)) with
      | Except.error e => Except.error e
      | Except.ok (ip, cp) =>
        match s.curr_f with
        | none => Except.error PErr.nameError
        | some cf =>
          if cf = infill_f then Except.ok { s with power := s.power ++ [ip] }
          else if cf = contour_f then Except.ok { s with power := s.power ++ [cp] }
          else Except.error PErr.fValueError
    else Except.ok { s with power := s.power ++ [0] }
  else Except.ok s

/-- AMPES.py:341-378: the line loop.  After each line's token loop, the
check `if group_flag and group_idx == -1: break` runs (NameError when
`group_idx` is still unbound), then the power classification. -/
def parseLines (cfg : Config) (gflag : Bool) (intervals : List (ℤ × ℤ))
    (infill_f contour_f ip0 cp0 : ℚ) :
    ParseState → List (List Tok) → Except PErr ParseState
  | s, [] => Except.ok s
  | s, l :: ls =>
    match tokLoop gflag intervals s l with
    | Except.error e => Except.error e
    | Except.ok s1 =>
      match
        (if gflag then
          match s1.group_idx with
          | none => Except.error PErr.nameError
          | some gi => Except.ok (pyEqNegOne gi)
        else Except.ok false) with
      | Except.error e => Except.error e
      | Except.ok brkFlag =>
        if brkFlag then Except.ok s1
        else
          match classifyPower cfg gflag infill_f contour_f ip0 cp0 l s1 with
          | Except.error e => Except.error e
          | Except.ok s2 => parseLines cfg gflag intervals infill_f contour_f ip0 cp0 s2 ls

/-- The reading stage end to end: nominal F values from the first group
(AMPES.py:228-229/241-242), non-group powers from that group
(AMPES.py:243-244), `intervals` when grouping is active (AMPES.py:221,
KeyError when a group lacks `layers`), then the line loop from the empty
state. -/
def parseGcode (cfg : Config) (gcode : List (List Tok)) : Except PErr ParseState :=
  match cfg.layer_group_list.head? with
  | none => Except.error PErr.indexError
  | some g0 =>
    match (if group_flag cfg then intervalsOf cfg else some []) with
    | none => Except.error PErr.keyError
    | some intervals =>
      parseLines cfg (group_flag cfg) intervals (g0.infill.base_speed * 60)
        (g0.contour.base_speed * 60) g0.infill.secPower g0.contour.secPower
        initParseState gcode

/-! ### The roller/dwell logic check (AMPES.py:261-272) -/

inductive CfgErr where
  | wDwellExceedsDwell
  | dwellDisabled
deriving DecidableEq, Repr

/-- AMPES.py:261-272, run before any gcode line is read: with the roller
enabled, dwell must be enabled and `w_dwell` must not exceed any applicable
group interlayer dwell (every group under grouping, the single group's
value otherwise). -/
def rollerDwellLogicCheck (cfg : Config) : Except CfgErr Unit :=
  if cfg.roller then
    if cfg.dwell then
      if group_flag cfg then
        if cfg.layer_group_list.any (fun g => g.interlayer_dwell < cfg.w_dwell) then
          Except.error CfgErr.wDwellExceedsDwell
        else Except.ok ()
      else
        if ((cfg.layer_group_list.head?.map (fun g => g.interlayer_dwell)).getD 0) < cfg.w_dwell
        then Except.error CfgErr.wDwellExceedsDwell
        else Except.ok ()
    else Except.error CfgErr.dwellDisabled
  else Except.ok ()

/-- The layer groups whose `interlayer_dwell` the check compares against. -/
def applicableGroups (cfg : Config) : List LayerGroup :=
  if group_flag cfg then cfg.layer_group_list else cfg.layer_group_list.take 1

/-- Program order of AMPES.py: the configuration logic check (line 262)
runs before the gcode file is opened (line 330); a failing check aborts the
run before a single line is consumed. -/
def runCheckAndParse (cfg : Config) (gcode : List (List Tok)) :
    Except (CfgErr ⊕ PErr) ParseState :=
  match rollerDwellLogicCheck cfg with
  | Except.error e => Except.error (Sum.inl e)
  | Except.ok _ =>
    match parseGcode cfg gcode with
    | Except.error e => Except.error (Sum.inr e)
    | Except.ok s => Except.ok s

end AMPES

namespace AM_Tech

/-- AM_Tech.py:301-310 (the FGM variant of the segment concatenation):
identical to AMPES.py:436-445 except that every `np.linspace` call uses
`interval+1` sample points instead of `interval+2`. -/
def segConcat (interval : ℕ) (a b : ℚ) (out : List ℚ) : List ℚ :=
  out.dropLast ++ AMPES.linspace a b (interval + 1)

end AM_Tech

namespace AMPES

/-! ### Concrete instances used by the claim counterexamples and witnesses -/

/-- A single-group configuration without an explicit `layers` key:
grouping is inactive.  Infill base speed 1 (nominal F value 60), contour
base speed 2 (nominal F value 120), powers 5 and 3, interlayer dwell 10,
interval 0, layer height 1, dwell and roller on with `w_dwell = 2`. -/
def cfgSingle : Config :=
  ⟨[⟨none, ⟨1, none, 5⟩, ⟨2, none, 3⟩, 10⟩], 0, 1, true, true, 2, false⟩

/-- The same group with an explicit `layers: [1, 2]` key: grouping is
active and `intervals` is the single Python range `range(0, 3)`. -/
def cfgGrouped : Config :=
  ⟨[⟨some (1, 2), ⟨1, none, 5⟩, ⟨2, none, 3⟩, 10⟩], 0, 1, true, true, 2, false⟩

/-- A concrete stand-in for `math.sqrt` in the witnesses; the claims only
constrain the square-root parameter to be non-negative on non-negative
inputs, which this function satisfies. -/
def sqrtId : ℚ → ℚ := fun q => q

/-- Six movement lines: four Z-only lines (the fourth reaching layer index
3, outside `range(0, 3)`), then an F line and an X line. -/
def gcodeC1 : List (List Tok) :=
  [[Tok.Z 1], [Tok.Z 2], [Tok.Z 3], [Tok.Z 4], [Tok.F 60], [Tok.X 1]]

/-- The state the reading loop reaches on `gcodeC1` under `cfgGrouped`:
all four Z values recorded and the F and X lines after the out-of-range Z
still consumed. -/
def parseOutC1 : ParseState :=
  ⟨[1], [], [1, 2, 3, 4], [60], [0, 0, 0, 0], [0], 1, some 60, some PyRet.pyFalse⟩

/-- The initial interpolation state for inputs with `x[0] = y[0] = 0` and
`z[1] = 5`. -/
def s0W : InterpState := ⟨[0], [0], [5], [0], [0], 0, 5, 2, none, []⟩

/-- One non-jump loop body from `s0W` on the two-vertex input; also the
full run on that input. -/
def outNoJump : InterpState :=
  ⟨[0, 1], [0, 0], [5, 5], [1, 1], [0, 1], 1, 5, 2, some 1, []⟩

/-- One loop body from `s0W` when the layer jump fires. -/
def outJumpStep : InterpState :=
  ⟨[0, 1, 1, 1], [0, 0, 0, 0], [5, 5, 5, 6], [1, 1, 0, 0], [0, 1, 1, 1], 1, 6, 3,
    some 1, [2]⟩

/-- The full three-vertex run with one layer jump (`z_posl = [0, 0, 2]`). -/
def outOneJump : InterpState :=
  ⟨[0, 1, 1, 1, 2], [0, 0, 0, 0, 0], [5, 5, 5, 6, 6], [1, 1, 0, 1, 1],
    [0, 1, 1, 1, 2], 2, 6, 3, some 1, [2]⟩

end AMPES

namespace AMPES

/-! ## Theorems -/

/-- Whatever `get_idx_from_ranges` returns, the callers' `== -1` test is
false: a found index is a natural number, and Python's `False == -1`
evaluates to `False` because `False` counts as `0`. -/
theorem pyEqNegOne_eq_false (r : PyRet) : pyEqNegOne r = false := by
  cases r <;> simp [pyEqNegOne, PyRet.toInt]

theorem get_idx_go_spec (num : ℤ) :
    ∀ (i : ℕ) (rs : List (ℤ × ℤ)), getIdxGo num i rs = PyRet.pyFalse ∨
      ∃ k, getIdxGo num i rs = PyRet.idx k ∧ i ≤ k := by
  intro i rs
  induction rs generalizing i with
  | nil => exact Or.inl rfl
  | cons r rs ih =>
    by_cases h : inPyRange num r
    · exact Or.inr ⟨i, by simp [getIdxGo, h], le_refl i⟩
    · rcases ih (i + 1) with h' | ⟨k, hk, hik⟩
      · exact Or.inl (by simp [getIdxGo, h, h'])
      · exact Or.inr ⟨k, by simp [getIdxGo, h, hk], by omega⟩


/-- Pointwise view of `List.zipWith` through `getD`, by simultaneous
induction on the two lists and the index. -/
theorem zipWith_getD (f : ℚ → ℚ → ℚ) :
    ∀ (l1 l2 : List ℚ) (n : ℕ), n < l1.length → n < l2.length →
      (List.zipWith f l1 l2).getD n 0 = f (l1.getD n 0) (l2.getD n 0) := by
  intro l1
  induction l1 with
  | nil => intro l2 n h1 _; simp at h1
  | cons a l1 ih =>
    intro l2 n h1 h2
    cases l2 with
    | nil => simp at h2
    | cons b l2 =>
      cases n with
      | zero => simp
      | succ m =>
        simp only [List.zipWith_cons_cons, List.getD_cons_succ]
        exact ih l2 m (by simpa using h1) (by simpa using h2)

/-- `getD` through `List.map`. -/
theorem map_getD (f : ℚ → ℚ) :
    ∀ (l : List ℚ) (n : ℕ), n < l.length → (l.map f).getD n 0 = f (l.getD n 0) := by
  intro l
  induction l with
  | nil => intro n h; simp at h
  | cons a l ih =>
    intro n h
    cases n with
    | zero => simp
    | succ m => simpa using ih m (by simpa using h)

theorem zipWith_length (f : ℚ → ℚ → ℚ) (l1 l2 : List ℚ) :
    (List.zipWith f l1 l2).length = min l1.length l2.length := by
  simp

/-- `getD` on a `List.replicate`. -/
theorem replicate_getD (c : ℚ) :
    ∀ (m n : ℕ), n < m → (List.replicate m c).getD n 0 = c := by
  intro m
  induction m with
  | zero => intro n h; omega
  | succ k ih =>
    intro n h
    cases n with
    | zero => simp
    | succ j =>
      rw [List.replicate_succ, List.getD_cons_succ]
      exact ih j (by omega)

/-- Claim C6 (amended): `perturb` in AMPES.py never changes a zero sample,
for every scheme tag, deviation and random draw; the AMTech.py variant has
no `vals[input_arr==0] = 0` mask and preserves zeros only in its
unrecognized-scheme branch. -/
theorem claim_C6_amended (input : List ℚ) (dev : ℚ) (scheme : Scheme) (draws : List ℚ)
    (n : ℕ) (hn : n < input.length) (hd : draws.length = input.length)
    (h0 : input.getD n 0 = 0) :
    (perturb input dev scheme draws).getD n 0 = 0 ∧
      (scheme = Scheme.other → (AMTech.perturb input dev scheme draws).getD n 0 = 0) := by
  have hmap : (draws.map (fun v => v * dev)).length = input.length := by
    simpa using hd
  have hmaskIf : (maskZeros input (draws.map (fun v => v * dev))).getD n 0 =
      if input.getD n 0 = 0 then 0 else (draws.map (fun v => v * dev)).getD n 0 :=
    zipWith_getD _ input _ n hn (by omega)
  have hmask : (maskZeros input (draws.map (fun v => v * dev))).getD n 0 = 0 := by
    rw [hmaskIf, h0]
    simp
  have hmasklen : (maskZeros input (draws.map (fun v => v * dev))).length = input.length := by
    simp [maskZeros, hmap]
  have hrep : (List.replicate input.length (0 : ℚ)).getD n 0 = 0 :=
    replicate_getD 0 input.length n hn
  constructor
  · cases scheme
    case gaussian =>
      have hadd := zipWith_getD (fun a v => a + v) input
        (maskZeros input (draws.map (fun v => v * dev))) n hn (by omega)
      simp only [perturb]
      rw [hadd, h0, hmask]
      simp
    case strict =>
      have hadd := zipWith_getD (fun a v => a + v) input
        (maskZeros input (draws.map (fun v => v * dev))) n hn (by omega)
      simp only [perturb]
      rw [hadd, h0, hmask]
      simp
    case uniform =>
      have hadd := zipWith_getD (fun a v => a + v) input
        (maskZeros input (draws.map (fun v => v * dev))) n hn (by omega)
      simp only [perturb]
      rw [hadd, h0, hmask]
      simp
    case other =>
      have hadd := zipWith_getD (fun a v => a + v) input
        (List.replicate input.length 0) n hn (by simp [hn])
      simp only [perturb]
      rw [hadd, h0, hrep]
      simp
  · intro hs
    subst hs
    have hadd := zipWith_getD (fun a v => a + v) input
      (List.replicate input.length 0) n hn (by simp [hn])
    simp only [AMTech.perturb]
    rw [hadd, h0, hrep]
    simp

/-- Witness for C6: on a concrete array with a zero sample, the AMPES
perturbation leaves the zero in place for the gaussian scheme. -/
theorem claim_C6_amended_witness :
    (perturb [0, 5] 2 Scheme.gaussian [1, 1]).getD 0 0 = 0 ∧
      (Scheme.gaussian = Scheme.other →
        (AMTech.perturb [0, 5] 2 Scheme.gaussian [1, 1]).getD 0 0 = 0) :=
  claim_C6_amended [0, 5] 2 Scheme.gaussian [1, 1] 0 (by decide) (by decide) (by decide)

/-- Counterexample for C6 as stated: the AMTech.py `perturb` *does* change
a zero sample (input power `0`, deviation `1`, gaussian scheme, a random
draw of `1` turns the sample into `1 ≠ 0`). -/
theorem claim_C6_counterexample :
    AMTech.perturb [0] 1 Scheme.gaussian [1] = [1] ∧ (1 : ℚ) ≠ 0 := by
  constructor
  · norm_num [AMTech.perturb]
  · norm_num

/-! ### Structural lemmas about the interpolation loop -/

theorem linspace_length (a b : ℚ) (n : ℕ) : (linspace a b n).length = n := by
  rw [linspace, List.length_map, List.length_range]

/-- Unfolding a successful `segAdvance`: the six list reads succeed, the
velocity resolves (to the infill speed, the contour speed, or the carried
one) and is non-zero, and the state is the five drop-last concatenations. -/
theorem segAdvance_spec {sqrtFn : ℚ → ℚ} {interval : ℕ}
    {isp csp infill_f contour_f : ℚ} {x y f power : List ℚ} {i : ℕ}
    {s s1 : InterpState}
    (h : segAdvance sqrtFn interval isp csp infill_f contour_f x y f power i s = some s1) :
    ∃ xi1 xi yi1 yi fi pi v,
      x.get? (i - 1) = some xi1 ∧ x.get? i = some xi ∧
      y.get? (i - 1) = some yi1 ∧ y.get? i = some yi ∧
      f.get? i = some fi ∧ power.get? i = some pi ∧
      (if fi = infill_f then some isp else if fi = contour_f then some csp else s.vel)
        = some v ∧
      ¬v = 0 ∧
      s1 = { s with
        x_out := s.x_out.dropLast ++ linspace xi1 xi (interval + 2)
        y_out := s.y_out.dropLast ++ linspace yi1 yi (interval + 2)
        z_out := s.z_out.dropLast ++ List.replicate (interval + 2) s.z_coord
        power_out := s.power_out.dropLast ++ List.replicate (interval + 2) pi
        t_out := s.t_out.dropLast ++
          linspace s.time
            (s.time + sqrtFn ((xi - xi1) ^ 2 + (yi - yi1) ^ 2) / v) (interval + 2)
        time := s.time + sqrtFn ((xi - xi1) ^ 2 + (yi - yi1) ^ 2) / v
        vel := some v } := by
  unfold segAdvance at h
  cases hx1 : x.get? (i - 1) with
  | none => rw [hx1] at h; simp at h
  | some xi1 =>
  rw [hx1] at h
  cases hx2 : x.get? i with
  | none => rw [hx2] at h; simp at h
  | some xi =>
  rw [hx2] at h
  cases hy1 : y.get? (i - 1) with
  | none => rw [hy1] at h; simp at h
  | some yi1 =>
  rw [hy1] at h
  cases hy2 : y.get? i with
  | none => rw [hy2] at h; simp at h
  | some yi =>
  rw [hy2] at h
  cases hf : f.get? i with
  | none => rw [hf] at h; simp at h
  | some fi =>
  rw [hf] at h
  cases hp : power.get? i with
  | none => rw [hp] at h; simp at h
  | some pi =>
  rw [hp] at h
  simp only [Option.bind_eq_bind, Option.some_bind] at h
  by_cases h1 : fi = infill_f
  · rw [if_pos h1] at h
    by_cases hz : isp = 0
    · rw [if_pos hz] at h; simp at h
    · rw [if_neg hz] at h
      refine ⟨xi1, xi, yi1, yi, fi, pi, isp, rfl, rfl, rfl, rfl, rfl, rfl, ?_, hz, ?_⟩
      · rw [if_pos h1]
      · exact (Option.some.inj h).symm
  · rw [if_neg h1] at h
    by_cases h2 : fi = contour_f
    · rw [if_pos h2] at h
      by_cases hz : csp = 0
      · rw [if_pos hz] at h; simp at h
      · rw [if_neg hz] at h
        refine ⟨xi1, xi, yi1, yi, fi, pi, csp, rfl, rfl, rfl, rfl, rfl, rfl, ?_, hz, ?_⟩
        · rw [if_neg h1, if_pos h2]
        · exact (Option.some.inj h).symm
    · rw [if_neg h2] at h
      cases hv : s.vel with
      | none => rw [hv] at h; simp at h
      | some v =>
        rw [hv] at h
        simp only [Option.some_bind] at h
        by_cases hz : v = 0
        · rw [if_pos hz] at h; simp at h
        · rw [if_neg hz] at h
          refine ⟨xi1, xi, yi1, yi, fi, pi, v, rfl, rfl, rfl, rfl, rfl, rfl, ?_, hz, ?_⟩
          · rw [if_neg h1, if_neg h2]
          · exact (Option.some.inj h).symm

theorem resolveSpeeds_ne_brkOut (cfg : Config) (intervals : List (ℤ × ℤ))
    (isp0 csp0 : ℚ) (j : ℕ) :
    resolveSpeeds cfg intervals isp0 csp0 j ≠ SpeedOut.brkOut := by
  unfold resolveSpeeds
  by_cases hg : group_flag cfg
  · simp only [hg, if_true, pyEqNegOne_eq_false, Bool.false_eq_true, if_false]
    cases groupSpeeds cfg (get_idx_from_ranges ((j : ℤ) - 2) intervals) with
    | none => simp
    | some p => cases p with | mk a b => simp
  · simp [hg]

/-- The interpolation loop body never executes its `break`: the guard is
`get_idx_from_ranges(j-2, intervals) == -1`, which is always false. -/
theorem interpStep_ne_brk (cfg : Config) (sqrtFn : ℚ → ℚ) (intervals : List (ℤ × ℤ))
    (isp0 csp0 infill_f contour_f : ℚ) (x y f power : List ℚ) (z_posl : List ℕ)
    (i : ℕ) (s s' : InterpState) :
    interpStep cfg sqrtFn intervals isp0 csp0 infill_f contour_f x y f power z_posl i s
      ≠ StepRes.brk s' := by
  intro h
  unfold interpStep at h
  cases hr : resolveSpeeds cfg intervals isp0 csp0 s.j with
  | brkOut => exact resolveSpeeds_ne_brkOut cfg intervals isp0 csp0 s.j hr
  | errOut => rw [hr] at h; simp at h
  | okOut isp csp =>
    rw [hr] at h
    dsimp only at h
    cases hseg : segAdvance sqrtFn cfg.interval isp csp infill_f contour_f x y f power i s with
    | none => rw [hseg] at h; simp at h
    | some s1 =>
      rw [hseg] at h
      dsimp only at h
      by_cases hj : s1.j < z_posl.length ∧ (i : ℤ) = (z_posl.getD s1.j 0 : ℤ) - 1
      · rw [if_pos hj] at h; simp at h
      · rw [if_neg hj] at h; simp at h

/-- Unfolding a `cont` result of the loop body: the speeds resolved, the
segment advanced, and the jump append did or did not run according to the
`i == z_posl[j]-1` test. -/
theorem interpStep_cont_spec {cfg : Config} {sqrtFn : ℚ → ℚ}
    {intervals : List (ℤ × ℤ)} {isp0 csp0 infill_f contour_f : ℚ}
    {x y f power : List ℚ} {z_posl : List ℕ} {i : ℕ} {s s' : InterpState}
    (h : interpStep cfg sqrtFn intervals isp0 csp0 infill_f contour_f x y f power z_posl i s
      = StepRes.cont s') :
    ∃ isp csp s1,
      resolveSpeeds cfg intervals isp0 csp0 s.j = SpeedOut.okOut isp csp ∧
      segAdvance sqrtFn cfg.interval isp csp infill_f contour_f x y f power i s = some s1 ∧
      ((s1.j < z_posl.length ∧ (i : ℤ) = (z_posl.getD s1.j 0 : ℤ) - 1 ∧
          s' = jumpAppend cfg.layer_height s1) ∨
        (¬(s1.j < z_posl.length ∧ (i : ℤ) = (z_posl.getD s1.j 0 : ℤ) - 1) ∧ s' = s1)) := by
  unfold interpStep at h
  cases hr : resolveSpeeds cfg intervals isp0 csp0 s.j with
  | brkOut => exact absurd hr (resolveSpeeds_ne_brkOut cfg intervals isp0 csp0 s.j)
  | errOut => rw [hr] at h; simp at h
  | okOut isp csp =>
    rw [hr] at h
    dsimp only at h
    cases hseg : segAdvance sqrtFn cfg.interval isp csp infill_f contour_f x y f power i s with
    | none => rw [hseg] at h; simp at h
    | some s1 =>
      rw [hseg] at h
      dsimp only at h
      by_cases hj : s1.j < z_posl.length ∧ (i : ℤ) = (z_posl.getD s1.j 0 : ℤ) - 1
      · rw [if_pos hj] at h
        exact ⟨isp, csp, s1, rfl, hseg, Or.inl ⟨hj.1, hj.2, (StepRes.cont.inj h).symm⟩⟩
      · rw [if_neg hj] at h
        exact ⟨isp, csp, s1, rfl, hseg, Or.inr ⟨hj, (StepRes.cont.inj h).symm⟩⟩

/-- State invariants survive a successful loop run. -/
theorem interpFold_inv (step : ℕ → InterpState → StepRes) (P : InterpState → Prop)
    (hc : ∀ i s s', step i s = StepRes.cont s' → P s → P s')
    (hb : ∀ i s s', step i s = StepRes.brk s' → P s → P s') :
    ∀ (idxs : List ℕ) (s s'), interpFold step idxs s = some s' → P s → P s' := by
  intro idxs
  induction idxs with
  | nil =>
    intro s s' h hp
    unfold interpFold at h
    cases h
    exact hp
  | cons i idxs ih =>
    intro s s' h hp
    unfold interpFold at h
    cases hs : step i s with
    | cont s1 =>
      rw [hs] at h
      exact ih s1 s' h (hc i s s1 hs hp)
    | brk s1 =>
      rw [hs] at h
      rw [show s1 = s' from Option.some.inj h] at hs
      exact hb i s s' hs hp
    | err => rw [hs] at h; simp at h

/-- Indexed invariants over the index list `range' a b`, when the body
never breaks. -/
theorem interpFold_range_inv (step : ℕ → InterpState → StepRes)
    (P : ℕ → InterpState → Prop)
    (hc : ∀ i s s', step i s = StepRes.cont s' → P i s → P (i + 1) s')
    (hnb : ∀ i s s', step i s ≠ StepRes.brk s') :
    ∀ (b a : ℕ) (s s'), interpFold step (List.range' a b) s = some s' → P a s → P (a + b) s' := by
  intro b
  induction b with
  | zero =>
    intro a s s' h hp
    unfold interpFold at h
    · cases h
      exact hp
  | succ b ih =>
    intro a s s' h hp
    rw [List.range'_succ] at h
    unfold interpFold at h
    cases hs : step a s with
    | cont s1 =>
      rw [hs] at h
      have hres := ih (a + 1) s1 s' h (hc a s s1 hs hp)
      have : a + 1 + b = a + (b + 1) := by omega
      rwa [this] at hres
    | brk s1 => exact absurd hs (hnb a s s1)
    | err => rw [hs] at h; simp at h

/-- Unfolding a successful `interpRun` into its `interpFold` call. -/
theorem interpRun_spec {cfg : Config} {sqrtFn : ℚ → ℚ} {x y z f power : List ℚ}
    {z_posl : List ℕ} {out : InterpState}
    (h : interpRun cfg sqrtFn x y z f power z_posl = some out) :
    ∃ g0 intervals x0 y0 z1,
      cfg.layer_group_list.head? = some g0 ∧
      (if group_flag cfg then intervalsOf cfg else some []) = some intervals ∧
      x.get? 0 = some x0 ∧ y.get? 0 = some y0 ∧ z.get? 1 = some z1 ∧
      interpFold
        (interpStep cfg sqrtFn intervals
          (g0.infill.output_speed.getD g0.infill.base_speed)
          (g0.contour.output_speed.getD g0.contour.base_speed)
          (g0.infill.base_speed * 60) (g0.contour.base_speed * 60) x y f power z_posl)
        (List.range' 1 (x.length - 1))
        { x_out := [x0], y_out := [y0], z_out := [z1], power_out := [0], t_out := [0]
          time := 0, z_coord := z1, j := 2, vel := none, jump_idxs := [] } = some out := by
  unfold interpRun at h
  cases hg : cfg.layer_group_list.head? with
  | none => rw [hg] at h; simp at h
  | some g0 =>
  rw [hg] at h
  cases hiv : (if group_flag cfg then intervalsOf cfg else some []) with
  | none => rw [hiv] at h; simp at h
  | some intervals =>
  rw [hiv] at h
  cases hx0 : x.get? 0 with
  | none => rw [hx0] at h; simp at h
  | some x0 =>
  rw [hx0] at h
  cases hy0 : y.get? 0 with
  | none => rw [hy0] at h; simp at h
  | some y0 =>
  rw [hy0] at h
  cases hz1 : z.get? 1 with
  | none => rw [hz1] at h; simp at h
  | some z1 =>
  rw [hz1] at h
  exact ⟨g0, intervals, x0, y0, z1, rfl, rfl, rfl, rfl, rfl, h⟩

/-! ### Array-length lemmas -/

theorem pySliceStart_le (k : ℤ) (len : ℕ) : pySliceStart k len ≤ len := by
  unfold pySliceStart
  by_cases h : 0 ≤ k
  · simp [h]
  · simp [h]

theorem sliceAdd_length (t : List ℚ) (k : ℤ) (d : ℚ) :
    (sliceAdd t k d).length = t.length := by
  have hle := pySliceStart_le k t.length
  simp [sliceAdd, List.length_take, List.length_drop]
  omega

theorem dwellAdjust_foldl_length (jumps : List ℤ) (dwellOf : ℕ → ℚ) :
    ∀ (l : List ℕ) (t : List ℚ),
      (l.foldl (fun t i => sliceAdd t (jumps.getD i 0) (dwellOf i)) t).length = t.length := by
  intro l
  induction l with
  | nil => intro t; rfl
  | cons i l ih =>
    intro t
    rw [List.foldl_cons, ih, sliceAdd_length]

theorem dwellAdjust_length (t : List ℚ) (jumps : List ℤ) (dwellOf : ℕ → ℚ) :
    (dwellAdjust t jumps dwellOf).length = t.length := by
  unfold dwellAdjust
  exact dwellAdjust_foldl_length jumps dwellOf (List.range jumps.length) t

theorem applyDwell_length (roller : Bool) (w : ℚ) (t : List ℚ) (jumps : List ℤ)
    (dwellOf : ℕ → ℚ) : (applyDwell roller w t jumps dwellOf).length = t.length := by
  unfold applyDwell
  rw [dwellAdjust_length]
  by_cases h : roller <;> simp [h]

theorem perturb_length (input : List ℚ) (dev : ℚ) (scheme : Scheme) (draws : List ℚ)
    (hd : draws.length = input.length) :
    (perturb input dev scheme draws).length = input.length := by
  cases scheme <;> simp [perturb, maskZeros, hd]

/-- The five output arrays stay in lockstep through one loop body. -/
theorem interpStep_preserves_lengths {cfg : Config} {sqrtFn : ℚ → ℚ}
    {intervals : List (ℤ × ℤ)} {isp0 csp0 infill_f contour_f : ℚ}
    {x y f power : List ℚ} {z_posl : List ℕ} {i : ℕ} {s s' : InterpState}
    (h : interpStep cfg sqrtFn intervals isp0 csp0 infill_f contour_f x y f power z_posl i s
      = StepRes.cont s')
    (hx : s.x_out.length = s.t_out.length) (hy : s.y_out.length = s.t_out.length)
    (hz : s.z_out.length = s.t_out.length) (hp : s.power_out.length = s.t_out.length) :
    (s'.x_out.length = s'.t_out.length ∧ s'.y_out.length = s'.t_out.length ∧
      s'.z_out.length = s'.t_out.length ∧ s'.power_out.length = s'.t_out.length) ∧
      s'.t_out ≠ [] := by
  obtain ⟨isp, csp, s1, -, hseg, hcase⟩ := interpStep_cont_spec h
  obtain ⟨xi1, xi, yi1, yi, fi, pi, v, -, -, -, -, -, -, -, -, hs1⟩ := segAdvance_spec hseg
  have h1x : s1.x_out.length = s1.t_out.length := by
    subst hs1; simp [linspace_length]; omega
  have h1y : s1.y_out.length = s1.t_out.length := by
    subst hs1; simp [linspace_length]; omega
  have h1z : s1.z_out.length = s1.t_out.length := by
    subst hs1; simp [linspace_length]; omega
  have h1p : s1.power_out.length = s1.t_out.length := by
    subst hs1; simp [linspace_length]; omega
  have h1ne : s1.t_out ≠ [] := by
    subst hs1
    intro hcon
    have := congrArg List.length hcon
    simp [linspace_length] at this
  rcases hcase with ⟨-, -, rfl⟩ | ⟨-, rfl⟩
  · refine ⟨⟨?_, ?_, ?_, ?_⟩, ?_⟩ <;>
      simp [jumpAppend, h1x, h1y, h1z, h1p]
  · exact ⟨⟨h1x, h1y, h1z, h1p⟩, h1ne⟩

/-- Claim C10: after the interpolation loop the five parallel arrays have
equal length (and are nonempty), dwell injection preserves the timestamp
array's length, and power perturbation preserves the power array's length,
so the event-series writer can index all five arrays over
`range(len(t_out))`. -/
theorem claim_C10 (cfg : Config) (sqrtFn : ℚ → ℚ) (x y z f power : List ℚ)
    (z_posl : List ℕ) (out : InterpState)
    (hrun : interpRun cfg sqrtFn x y z f power z_posl = some out) :
    (out.x_out.length = out.t_out.length ∧ out.y_out.length = out.t_out.length ∧
      out.z_out.length = out.t_out.length ∧ out.power_out.length = out.t_out.length ∧
      out.t_out ≠ []) ∧
    (∀ (t : List ℚ) (jumps : List ℤ) (dwellOf : ℕ → ℚ) (roller : Bool) (w : ℚ),
      (applyDwell roller w t jumps dwellOf).length = t.length) ∧
    (∀ (input : List ℚ) (dev : ℚ) (scheme : Scheme) (draws : List ℚ),
      draws.length = input.length → (perturb input dev scheme draws).length = input.length) := by
  refine ⟨?_, fun t jumps dwellOf roller w => applyDwell_length roller w t jumps dwellOf,
    fun input dev scheme draws hd => perturb_length input dev scheme draws hd⟩
  obtain ⟨g0, intervals, x0, y0, z1, -, -, -, -, -, hfold⟩ := interpRun_spec hrun
  have := interpFold_inv _
    (fun s => (s.x_out.length = s.t_out.length ∧ s.y_out.length = s.t_out.length ∧
      s.z_out.length = s.t_out.length ∧ s.power_out.length = s.t_out.length) ∧ s.t_out ≠ [])
    (fun i s s' hs hP =>
      interpStep_preserves_lengths hs hP.1.1 hP.1.2.1 hP.1.2.2.1 hP.1.2.2.2)
    (fun i s s' hs _ => absurd hs (interpStep_ne_brk _ _ _ _ _ _ _ _ _ _ _ _ i s s'))
    _ _ _ hfold (by simp)
  exact ⟨this.1.1, this.1.2.1, this.1.2.2.1, this.1.2.2.2, this.2⟩

/-! ### Pointwise linspace lemmas -/

theorem rangeMap_getD {α : Type} (f : ℕ → α) (d : α) (n k : ℕ) (hk : k < n) :
    ((List.range n).map f).getD k d = f k := by
  rw [List.getD_eq_getElem?_getD, List.getElem?_map, List.getElem?_range hk]
  rfl

theorem linspace_getD (a b : ℚ) (n k : ℕ) (hk : k < n) :
    (linspace a b n).getD k 0 = a + (b - a) * (k : ℚ) / ((n : ℚ) - 1) := by
  unfold linspace
  exact rangeMap_getD _ 0 n k hk

theorem linspace_getD_zero (a b : ℚ) (n : ℕ) (hn : 0 < n) :
    (linspace a b n).getD 0 0 = a := by
  rw [linspace_getD a b n 0 hn]
  simp

theorem linspace_getD_last (a b : ℚ) (n : ℕ) :
    (linspace a b (n + 2)).getD (n + 1) 0 = b := by
  rw [linspace_getD a b (n + 2) (n + 1) (by omega)]
  have hne : ((n : ℚ) + 2) - 1 ≠ 0 := by
    have : (0 : ℚ) ≤ (n : ℚ) := Nat.cast_nonneg n
    intro hcon
    nlinarith
  push_cast
  field_simp
  ring

theorem linspace_getD_step (a b : ℚ) (n k : ℕ) (hk : k < n + 1) :
    (linspace a b (n + 2)).getD (k + 1) 0 - (linspace a b (n + 2)).getD k 0 =
      (b - a) / ((n : ℚ) + 1) := by
  rw [linspace_getD a b (n + 2) (k + 1) (by omega), linspace_getD a b (n + 2) k (by omega)]
  have hne : ((n : ℚ) + 1) ≠ 0 := by
    have : (0 : ℚ) ≤ (n : ℚ) := Nat.cast_nonneg n
    intro hcon
    nlinarith
  have hcast : ((n : ℚ) + 2) - 1 = (n : ℚ) + 1 := by ring
  push_cast
  rw [hcast]
  field_simp
  ring

/-- Effect of one loop body on the series length, the layer counter `j`
and the recorded jump indices. -/
theorem interpStep_cont_shape {cfg : Config} {sqrtFn : ℚ → ℚ}
    {intervals : List (ℤ × ℤ)} {isp0 csp0 infill_f contour_f : ℚ}
    {x y f power : List ℚ} {z_posl : List ℕ} {i : ℕ} {s s' : InterpState}
    (h : interpStep cfg sqrtFn intervals isp0 csp0 infill_f contour_f x y f power z_posl i s
      = StepRes.cont s')
    (hne : s.t_out ≠ []) :
    s'.t_out ≠ [] ∧
      ((¬(s.j < z_posl.length ∧ (i : ℤ) = (z_posl.getD s.j 0 : ℤ) - 1) ∧
          s'.j = s.j ∧ s'.jump_idxs = s.jump_idxs ∧
          s'.t_out.length = s.t_out.length + (cfg.interval + 1)) ∨
        ((s.j < z_posl.length ∧ (i : ℤ) = (z_posl.getD s.j 0 : ℤ) - 1) ∧
          s'.j = s.j + 1 ∧
          s'.jump_idxs = s.jump_idxs ++ [s.t_out.length + cfg.interval + 1] ∧
          s'.t_out.length = s.t_out.length + (cfg.interval + 1) + 2)) := by
  obtain ⟨isp, csp, s1, -, hseg, hcase⟩ := interpStep_cont_spec h
  obtain ⟨xi1, xi, yi1, yi, fi, pi, v, -, -, -, -, -, -, -, -, hs1⟩ := segAdvance_spec hseg
  have hlen1 : s1.t_out.length = s.t_out.length + (cfg.interval + 1) := by
    subst hs1
    simp [linspace_length]
    have : 1 ≤ s.t_out.length := List.length_pos.mpr hne
    omega
  have hne1 : s1.t_out ≠ [] := by
    intro hcon
    have := congrArg List.length hcon
    rw [hlen1] at this
    simp at this
  have hj1 : s1.j = s.j := by subst hs1; rfl
  have hji1 : s1.jump_idxs = s.jump_idxs := by subst hs1; rfl
  rcases hcase with ⟨ha, hb, rfl⟩ | ⟨hnj, rfl⟩
  · rw [hj1] at ha
    rw [hj1] at hb
    refine ⟨?_, Or.inr ⟨⟨ha, hb⟩, ?_, ?_, ?_⟩⟩
    · simp [jumpAppend]
    · simp [jumpAppend, hj1]
    · simp only [jumpAppend]
      rw [hji1, hlen1]
      have : s.t_out.length + (cfg.interval + 1) = s.t_out.length + cfg.interval + 1 := by omega
      rw [this]
    · simp only [jumpAppend, List.length_append]
      rw [hlen1]
      simp
  · rw [hj1] at hnj
    exact ⟨hne1, Or.inl ⟨hnj, hj1, hji1, hlen1⟩⟩

/-- Claim C9 (amended, AMPES.py side): a non-jump segment produces
`interval+2` samples in x, y and t — evenly spaced, endpoints included —
holds z and power constant, appends them after dropping the running
arrays' trailing point (so `interval+1` new points), and the finished
primary series has length `1 + segments*(interval+1) + 2*jumps`.  (The
AM_Tech.py FGM variant deviates: see the counterexample.) -/
theorem claim_C9_amended (cfg : Config) (sqrtFn : ℚ → ℚ) (intervals : List (ℤ × ℤ))
    (isp0 csp0 infill_f contour_f : ℚ) (x y z f power : List ℚ) (z_posl : List ℕ)
    (i : ℕ) (s s' out : InterpState)
    (hstep : interpStep cfg sqrtFn intervals isp0 csp0 infill_f contour_f x y f power z_posl i s
      = StepRes.cont s')
    (hnj : ¬(s.j < z_posl.length ∧ (i : ℤ) = (z_posl.getD s.j 0 : ℤ) - 1))
    (hne : s.t_out ≠ [])
    (hrun : interpRun cfg sqrtFn x y z f power z_posl = some out) :
    (∃ xi1 xi yi1 yi pi,
      x.get? (i - 1) = some xi1 ∧ x.get? i = some xi ∧
      y.get? (i - 1) = some yi1 ∧ y.get? i = some yi ∧ power.get? i = some pi ∧
      s'.x_out = s.x_out.dropLast ++ linspace xi1 xi (cfg.interval + 2) ∧
      s'.y_out = s.y_out.dropLast ++ linspace yi1 yi (cfg.interval + 2) ∧
      s'.z_out = s.z_out.dropLast ++ List.replicate (cfg.interval + 2) s.z_coord ∧
      s'.power_out = s.power_out.dropLast ++ List.replicate (cfg.interval + 2) pi ∧
      s'.t_out = s.t_out.dropLast ++ linspace s.time s'.time (cfg.interval + 2)) ∧
    s'.t_out.length = s.t_out.length + (cfg.interval + 1) ∧
    (∀ a b : ℚ,
      (linspace a b (cfg.interval + 2)).length = cfg.interval + 2 ∧
      (linspace a b (cfg.interval + 2)).getD 0 0 = a ∧
      (linspace a b (cfg.interval + 2)).getD (cfg.interval + 1) 0 = b ∧
      ∀ k, k < cfg.interval + 1 →
        (linspace a b (cfg.interval + 2)).getD (k + 1) 0 -
          (linspace a b (cfg.interval + 2)).getD k 0 = (b - a) / ((cfg.interval : ℚ) + 1)) ∧
    out.t_out.length = 1 + (x.length - 1) * (cfg.interval + 1) + 2 * out.jump_idxs.length := by
  obtain ⟨isp, csp, s1, -, hseg, hcase⟩ := interpStep_cont_spec hstep
  obtain ⟨xi1, xi, yi1, yi, fi, pi, v, hx1, hx2, hy1, hy2, hf, hp, -, -, hs1⟩ :=
    segAdvance_spec hseg
  have hj1 : s1.j = s.j := by subst hs1; rfl
  rcases hcase with ⟨ha, hb, -⟩ | ⟨-, rfl⟩
  · rw [hj1] at ha hb
    exact absurd ⟨ha, hb⟩ hnj
  refine ⟨⟨xi1, xi, yi1, yi, pi, hx1, hx2, hy1, hy2, hp, ?_, ?_, ?_, ?_, ?_⟩, ?_, ?_, ?_⟩
  · subst hs1; rfl
  · subst hs1; rfl
  · subst hs1; rfl
  · subst hs1; rfl
  · subst hs1; rfl
  · subst hs1
    simp [linspace_length]
    have : 1 ≤ s.t_out.length := List.length_pos.mpr hne
    omega
  · intro a b
    exact ⟨linspace_length a b _, linspace_getD_zero a b _ (by omega),
      linspace_getD_last a b _, fun k hk => linspace_getD_step a b _ k hk⟩
  · obtain ⟨g0, intervals2, x0, y0, z1, -, -, hx0, -, -, hfold⟩ := interpRun_spec hrun
    have hres := interpFold_range_inv _
      (fun i2 s2 => s2.t_out ≠ [] ∧ 1 ≤ i2 ∧
        s2.t_out.length = 1 + (i2 - 1) * (cfg.interval + 1) + 2 * s2.jump_idxs.length)
      (fun i2 s2 s2' hs2 hP => by
        obtain ⟨hne2, hor⟩ := interpStep_cont_shape hs2 hP.1
        have h1 := hP.2.1
        have hred : i2 + 1 - 1 = (i2 - 1) + 1 := by omega
        rcases hor with ⟨-, -, hji, hlen⟩ | ⟨-, -, hji, hlen⟩
        · refine ⟨hne2, by omega, ?_⟩
          rw [hlen, hji, hP.2.2, hred, Nat.succ_mul]
          ring
        · refine ⟨hne2, by omega, ?_⟩
          rw [hlen, hji, hP.2.2, hred, Nat.succ_mul]
          simp [List.length_append]
          ring)
      (fun i2 s2 s2' => interpStep_ne_brk _ _ _ _ _ _ _ _ _ _ _ _ i2 s2 s2')
      (x.length - 1) 1 _ _ hfold (by simp)
    have hxpos : 0 < x.length := by
      cases x with
      | nil => simp at hx0
      | cons a l => simp
    have hfin : 1 + (x.length - 1) = x.length := by omega
    rw [hfin] at hres
    have := hres.2.2
    omega

/-- Counterexample for C9 as stated: the FGM variant (AM_Tech.py:301-310)
subdivides with `interval+1` sample points, not `interval+2`.  At
`interval = 1`, a segment from `0` to `1` starting from the one-point
running series `[0]` yields `[0, 1]`: 2 samples instead of 3, and 1 new
point instead of the claimed `interval+1 = 2`. -/
theorem claim_C9_counterexample :
    AM_Tech.segConcat 1 0 1 [0] = [0, 1] ∧
      (AM_Tech.segConcat 1 0 1 [0]).length ≠ 1 + (1 + 1) := by
  have h : AM_Tech.segConcat 1 0 1 [0] = [0, 1] := by
    show ([(0 : ℚ)]).dropLast ++ linspace 0 1 2 = [0, 1]
    have h2 : linspace 0 1 2 = [0, 1] := by
      unfold linspace
      show List.map _ [0, 1] = _
      simp
      norm_num
    rw [h2]
    rfl
  refine ⟨h, ?_⟩
  rw [h]
  simp

/-- getD values of the two points appended behind a nonempty list. -/
theorem append_pair_getD (l : List ℚ) (c c2 : ℚ) (hl : 1 ≤ l.length) :
    (l ++ [c, c2]).getD ((l ++ [c, c2]).length - 2) 0 = c ∧
    (l ++ [c, c2]).getD ((l ++ [c, c2]).length - 1) 0 = c2 ∧
    (l ++ [c, c2]).getD ((l ++ [c, c2]).length - 3) 0 = l.getD (l.length - 1) 0 := by
  have hlen : (l ++ [c, c2]).length = l.length + 2 := by simp
  refine ⟨?_, ?_, ?_⟩
  · rw [hlen]
    have h2 : l.length + 2 - 2 = l.length := by omega
    rw [h2, List.getD_eq_getElem?_getD, List.getElem?_append_right (by omega)]
    simp
  · rw [hlen]
    have h2 : l.length + 2 - 1 = l.length + 1 := by omega
    rw [h2, List.getD_eq_getElem?_getD, List.getElem?_append_right (by omega)]
    have h3 : l.length + 1 - l.length = 1 := by omega
    rw [h3]
    simp
  · rw [hlen]
    have h2 : l.length + 2 - 3 = l.length - 1 := by omega
    rw [h2, List.getD_eq_getElem?_getD, List.getElem?_append, if_pos (by omega),
      List.getD_eq_getElem?_getD]

/-- Claim C5: at a layer jump, the two appended points copy the x and y of
the immediately preceding point, carry power exactly `0`, step z by exactly
one `layer_height` (old z, then old z plus the height), and (before dwell
injection) repeat the preceding point's timestamp. -/
theorem claim_C5 (cfg : Config) (sqrtFn : ℚ → ℚ) (intervals : List (ℤ × ℤ))
    (isp0 csp0 infill_f contour_f : ℚ) (x y f power : List ℚ) (z_posl : List ℕ)
    (i : ℕ) (s s' : InterpState)
    (hstep : interpStep cfg sqrtFn intervals isp0 csp0 infill_f contour_f x y f power z_posl i s
      = StepRes.cont s')
    (hj : s.j < z_posl.length ∧ (i : ℤ) = (z_posl.getD s.j 0 : ℤ) - 1) :
    (4 ≤ s'.x_out.length ∧
      s'.x_out.getD (s'.x_out.length - 2) 0 = s'.x_out.getD (s'.x_out.length - 3) 0 ∧
      s'.x_out.getD (s'.x_out.length - 1) 0 = s'.x_out.getD (s'.x_out.length - 3) 0) ∧
    (4 ≤ s'.y_out.length ∧
      s'.y_out.getD (s'.y_out.length - 2) 0 = s'.y_out.getD (s'.y_out.length - 3) 0 ∧
      s'.y_out.getD (s'.y_out.length - 1) 0 = s'.y_out.getD (s'.y_out.length - 3) 0) ∧
    (s'.power_out.getD (s'.power_out.length - 2) 0 = 0 ∧
      s'.power_out.getD (s'.power_out.length - 1) 0 = 0) ∧
    (4 ≤ s'.z_out.length ∧
      s'.z_out.getD (s'.z_out.length - 2) 0 = s'.z_out.getD (s'.z_out.length - 3) 0 ∧
      s'.z_out.getD (s'.z_out.length - 1) 0 =
        s'.z_out.getD (s'.z_out.length - 2) 0 + cfg.layer_height) ∧
    (4 ≤ s'.t_out.length ∧
      s'.t_out.getD (s'.t_out.length - 2) 0 = s'.t_out.getD (s'.t_out.length - 3) 0 ∧
      s'.t_out.getD (s'.t_out.length - 1) 0 = s'.t_out.getD (s'.t_out.length - 3) 0) := by
  obtain ⟨isp, csp, s1, -, hseg, hcase⟩ := interpStep_cont_spec hstep
  obtain ⟨xi1, xi, yi1, yi, fi, pi, v, -, -, -, -, -, -, -, -, hs1⟩ := segAdvance_spec hseg
  have hj1 : s1.j = s.j := by subst hs1; rfl
  rcases hcase with ⟨-, -, rfl⟩ | ⟨hnj, -⟩
  swap
  · rw [hj1] at hnj
    exact absurd hj hnj
  have hx1 : 2 ≤ s1.x_out.length := by
    subst hs1
    simp only [linspace_length, List.length_append, List.length_dropLast]
    omega
  have hy1 : 2 ≤ s1.y_out.length := by
    subst hs1
    simp only [linspace_length, List.length_append, List.length_dropLast]
    omega
  have hz1 : 2 ≤ s1.z_out.length := by
    subst hs1
    simp only [List.length_append, List.length_dropLast, List.length_replicate]
    omega
  have ht1 : 2 ≤ s1.t_out.length := by
    subst hs1
    simp only [linspace_length, List.length_append, List.length_dropLast]
    omega
  have hrep : ∀ c : ℚ, List.replicate 2 c = [c, c] := fun c => rfl
  constructor
  · -- x column
    have := append_pair_getD s1.x_out (s1.x_out.getD (s1.x_out.length - 1) 0)
      (s1.x_out.getD (s1.x_out.length - 1) 0) (by omega)
    simp only [jumpAppend, hrep]
    refine ⟨by simp; omega, ?_, ?_⟩
    · rw [this.1, this.2.2]
    · rw [this.2.1, this.2.2]
  refine ⟨?_, ?_, ?_, ?_⟩
  · -- y column
    have := append_pair_getD s1.y_out (s1.y_out.getD (s1.y_out.length - 1) 0)
      (s1.y_out.getD (s1.y_out.length - 1) 0) (by omega)
    simp only [jumpAppend, hrep]
    refine ⟨by simp; omega, ?_, ?_⟩
    · rw [this.1, this.2.2]
    · rw [this.2.1, this.2.2]
  · -- power column
    have := append_pair_getD s1.power_out 0 0
      (by subst hs1
          simp only [List.length_append, List.length_dropLast, List.length_replicate]
          omega)
    simp only [jumpAppend]
    exact ⟨this.1, this.2.1⟩
  · -- z column
    have := append_pair_getD s1.z_out (s1.z_out.getD (s1.z_out.length - 1) 0)
      (s1.z_out.getD (s1.z_out.length - 1) 0 + cfg.layer_height) (by omega)
    simp only [jumpAppend]
    refine ⟨by simp; omega, ?_, ?_⟩
    · rw [this.1, this.2.2]
    · rw [this.2.1, this.1]
  · -- t column
    have := append_pair_getD s1.t_out (s1.t_out.getD (s1.t_out.length - 1) 0)
      (s1.t_out.getD (s1.t_out.length - 1) 0) (by omega)
    simp only [jumpAppend, hrep]
    refine ⟨by simp; omega, ?_, ?_⟩
    · rw [this.1, this.2.2]
    · rw [this.2.1, this.2.2]

/-! ### Lemmas for the layer-jump index list -/

theorem range'_getD : ∀ (b a k : ℕ), k < b → (List.range' a b).getD k 0 = a + k := by
  intro b
  induction b with
  | zero => intro a k hk; omega
  | succ n ih =>
    intro a k hk
    rw [List.range'_succ]
    cases k with
    | zero => simp
    | succ m =>
      rw [List.getD_cons_succ, ih (a + 1) m (by omega)]
      omega

theorem mapNatInt_getD (f : ℕ → ℤ) :
    ∀ (l : List ℕ) (k : ℕ), k < l.length → (l.map f).getD k 0 = f (l.getD k 0) := by
  intro l
  induction l with
  | nil => intro k hk; simp at hk
  | cons a l ih =>
    intro k hk
    cases k with
    | zero => simp
    | succ m =>
      simp only [List.map_cons, List.getD_cons_succ]
      exact ih m (by simpa using hk)

theorem natList_getD_append (l : List ℕ) (a : ℕ) :
    ∀ k, (k < l.length → (l ++ [a]).getD k 0 = l.getD k 0) ∧
      ((l ++ [a]).getD l.length 0 = a) := by
  intro k
  constructor
  · intro hk
    rw [List.getD_eq_getElem?_getD, List.getElem?_append, if_pos hk,
      List.getD_eq_getElem?_getD]
  · rw [List.getD_eq_getElem?_getD, List.getElem?_append_right (le_refl _)]
    simp

theorem intList_eq_of_getD {l1 l2 : List ℤ} (hlen : l1.length = l2.length)
    (h : ∀ k, k < l1.length → l1.getD k 0 = l2.getD k 0) : l1 = l2 := by
  apply List.ext_getElem hlen
  intro i h1 h2
  have hg := h i h1
  rwa [List.getD_eq_getElem?_getD, List.getD_eq_getElem?_getD,
    List.getElem?_eq_getElem h1, List.getElem?_eq_getElem h2] at hg

/-- Claim C2 (amended): when every recorded layer boundary actually fires
(the `z_posl` counts are at least 2 at the first jump, strictly increasing,
and within the x range), the k-th entry of `z_inc_arr` is the recorded
index of the *first* appended jump point *plus one* — that is, the index of
the *second* of the two appended points, the one carrying the new z. -/
theorem claim_C2_amended (cfg : Config) (sqrtFn : ℚ → ℚ) (x y z f power : List ℚ)
    (z_posl : List ℕ) (out : InterpState)
    (hrun : interpRun cfg sqrtFn x y z f power z_posl = some out)
    (hlen3 : 3 ≤ z_posl.length)
    (hfirst : 2 ≤ z_posl.getD 2 0)
    (hmono : ∀ j2, 2 ≤ j2 → j2 + 1 < z_posl.length → z_posl.getD j2 0 < z_posl.getD (j2 + 1) 0)
    (hlast : z_posl.getD (z_posl.length - 1) 0 ≤ x.length) :
    z_inc_arr cfg.interval z_posl = out.jump_idxs.map (fun (n : ℕ) => (n : ℤ) + 1) := by
  have hge : ∀ j2, 2 ≤ j2 → j2 < z_posl.length → 2 ≤ z_posl.getD j2 0 := by
    intro j2
    induction j2 with
    | zero => intro h2 _; omega
    | succ n ih =>
      intro h2 hlt
      by_cases hn : n < 2
      · have he : n + 1 = 2 := by omega
        rw [he]
        exact hfirst
      · push_neg at hn
        have h1 := ih (by omega) (by omega)
        have hm := hmono n hn (by omega)
        omega
  have hchain : ∀ j1 j2, 2 ≤ j1 → j1 ≤ j2 → j2 < z_posl.length →
      z_posl.getD j1 0 ≤ z_posl.getD j2 0 := by
    intro j1 j2 hj1
    induction j2 with
    | zero => intro hle _; omega
    | succ n ih =>
      intro hle hlt
      by_cases he : j1 = n + 1
      · rw [he]
      · have h1 := ih (by omega) (by omega)
        have hm := hmono n (by omega) (by omega)
        omega
  obtain ⟨g0, intervals2, x0, y0, z1, -, -, hx0, -, -, hfold⟩ := interpRun_spec hrun
  have hxpos : 0 < x.length := by
    cases x with
    | nil => simp at hx0
    | cons a l => simp
  have hres := interpFold_range_inv
    (interpStep cfg sqrtFn intervals2 (g0.infill.output_speed.getD g0.infill.base_speed)
      (g0.contour.output_speed.getD g0.contour.base_speed)
      (g0.infill.base_speed * 60) (g0.contour.base_speed * 60) x y f power z_posl)
    (fun i2 s2 => s2.t_out ≠ [] ∧ 1 ≤ i2 ∧ 2 ≤ s2.j ∧ s2.j ≤ z_posl.length ∧
      (s2.j < z_posl.length → i2 < z_posl.getD s2.j 0) ∧
      s2.jump_idxs.length = s2.j - 2 ∧
      s2.t_out.length = 1 + (i2 - 1) * (cfg.interval + 1) + 2 * (s2.j - 2) ∧
      (∀ k, k < s2.j - 2 →
        s2.jump_idxs.getD k 0 =
          1 + (z_posl.getD (k + 2) 0 - 1) * (cfg.interval + 1) + 2 * k))
    (fun i2 s2 s2' hs2 hP => by
      obtain ⟨hne2, h12, hj2, hjle, hnext, hjilen, htlen, hjival⟩ := hP
      obtain ⟨hne2', hor⟩ := interpStep_cont_shape hs2 hne2
      have hred : i2 + 1 - 1 = (i2 - 1) + 1 := by omega
      rcases hor with ⟨hnj, hjeq, hji, hlen⟩ | ⟨⟨hjlt, hjz⟩, hjeq, hji, hlen⟩
      · -- no jump fired at this index
        refine ⟨hne2', by omega, by omega, by omega, ?_, by rw [hji, hjeq]; exact hjilen,
          ?_, ?_⟩
        · intro hlt
          rw [hjeq] at hlt ⊢
          have hv := hnext hlt
          have hzge := hge s2.j (by omega) hlt
          by_cases hcase : i2 + 1 = z_posl.getD s2.j 0
          · exfalso
            exact hnj ⟨hlt, by omega⟩
          · omega
        · rw [hlen, htlen, hjeq, hred, Nat.succ_mul]
          ring
        · intro k hk
          rw [hjeq] at hk
          rw [hji]
          exact hjival k hk
      · -- the jump for layer counter s2.j fired at index i2
        have hzge := hge s2.j (by omega) hjlt
        have hieq : i2 + 1 = z_posl.getD s2.j 0 := by omega
        refine ⟨hne2', by omega, by omega, by omega, ?_, ?_, ?_, ?_⟩
        · intro hlt
          rw [hjeq] at hlt
          rw [hjeq]
          have hm := hmono s2.j (by omega) hlt
          omega
        · rw [hji, hjeq]
          simp only [List.length_append, List.length_singleton]
          omega
        · rw [hlen, htlen, hjeq, hred, Nat.succ_mul]
          have : s2.j + 1 - 2 = (s2.j - 2) + 1 := by omega
          rw [this, Nat.mul_succ]
          ring
        · intro k hk
          rw [hjeq] at hk
          rw [hji]
          by_cases hknew : k < s2.j - 2
          · rw [(natList_getD_append s2.jump_idxs _ k).1 (by rw [hjilen]; exact hknew)]
            exact hjival k hknew
          · have hkeq : k = s2.j - 2 := by omega
            subst hkeq
            have h2 := (natList_getD_append s2.jump_idxs (s2.t_out.length + cfg.interval + 1)
              (s2.j - 2)).2
            rw [hjilen] at h2
            rw [h2, htlen]
            have hkz : z_posl.getD (s2.j - 2 + 2) 0 = z_posl.getD s2.j 0 := by
              have : s2.j - 2 + 2 = s2.j := by omega
              rw [this]
            rw [hkz, ← hieq]
            have : i2 + 1 - 1 = i2 := by omega
            rw [this]
            have h3 : i2 = (i2 - 1) + 1 := by omega
            rw [h3, Nat.succ_mul]
            have h4 : 1 + (i2 - 1) - 1 = i2 - 1 := by omega
            ring_nf
            rw [h4])
    (fun i2 s2 s2' => interpStep_ne_brk _ _ _ _ _ _ _ _ _ _ _ _ i2 s2 s2')
    (x.length - 1) 1 _ _ hfold
    (by
      dsimp only
      refine ⟨by simp, by omega, by omega, by omega, ?_, by simp, by simp, ?_⟩
      · intro hlt
        have := hfirst
        omega
      · intro k hk
        exact absurd hk (by omega))
  obtain ⟨-, -, hj2, hjle, hnext, hjilen, -, hjival⟩ := hres
  have hfin : 1 + (x.length - 1) = x.length := by omega
  rw [hfin] at hnext
  have hjfull : out.j = z_posl.length := by
    by_contra hne
    have hlt : out.j < z_posl.length := by omega
    have h1 := hnext hlt
    have h2 := hchain out.j (z_posl.length - 1) (by omega) (by omega) (by omega)
    omega
  apply intList_eq_of_getD
  · rw [z_inc_arr, List.length_map, List.length_map, List.length_range', hjilen, hjfull]
  · intro k hk
    have hklen : k < z_posl.length - 2 := by
      rw [z_inc_arr, List.length_map, List.length_range'] at hk
      exact hk
    have hkj : k < out.j - 2 := by omega
    rw [z_inc_arr]
    have hmap := mapNatInt_getD
      (fun i => ((z_posl.getD i 0 : ℤ) - 1) * ((cfg.interval : ℤ) + 1) + ((i : ℤ) - 1) * 2)
      (List.range' 2 (z_posl.length - 2)) k (by rw [List.length_range']; exact hklen)
    rw [hmap, range'_getD (z_posl.length - 2) 2 k hklen]
    have hmr := mapNatInt_getD (fun n => (n : ℤ) + 1) out.jump_idxs k
      (by rw [hjilen]; exact hkj)
    rw [hmr, hjival k hkj]
    have hzge : 2 ≤ z_posl.getD (k + 2) 0 := hge (k + 2) (by omega) (by omega)
    have hcast : ((z_posl.getD (k + 2) 0 - 1 : ℕ) : ℤ) = (z_posl.getD (k + 2) 0 : ℤ) - 1 := by
      omega
    push_cast [hcast]
    ring_nf

/-! ### Pointwise behavior of the dwell shifts -/

theorem sliceAdd_getD (t : List ℚ) (k : ℤ) (d : ℚ) (n : ℕ) (hn : n < t.length) :
    (sliceAdd t k d).getD n 0 =
      t.getD n 0 + (if pySliceStart k t.length ≤ n then d else 0) := by
  have hst := pySliceStart_le k t.length
  unfold sliceAdd
  by_cases hcase : n < pySliceStart k t.length
  · rw [if_neg (by omega)]
    rw [List.getD_eq_getElem?_getD, List.getElem?_append,
      if_pos (by rw [List.length_take]; omega)]
    rw [List.getElem?_take, if_pos hcase, ← List.getD_eq_getElem?_getD]
    ring
  · push_neg at hcase
    rw [if_pos hcase]
    rw [List.getD_eq_getElem?_getD,
      List.getElem?_append_right (by rw [List.length_take]; omega)]
    rw [List.length_take, min_eq_left hst, List.getElem?_map, List.getElem?_drop]
    have harith : pySliceStart k t.length + (n - pySliceStart k t.length) = n := by omega
    rw [harith, List.getElem?_eq_getElem hn]
    simp [List.getD_eq_getElem?_getD, List.getElem?_eq_getElem hn]

theorem dwellAdjust_foldl_getD (jumps : List ℤ) (dwellOf : ℕ → ℚ) :
    ∀ (l : List ℕ) (t : List ℚ) (n : ℕ), n < t.length →
      (l.foldl (fun t i => sliceAdd t (jumps.getD i 0) (dwellOf i)) t).getD n 0 =
        t.getD n 0 +
          (l.map (fun i =>
            if pySliceStart (jumps.getD i 0) t.length ≤ n then dwellOf i else 0)).sum := by
  intro l
  induction l with
  | nil => intro t n hn; simp
  | cons i l ih =>
    intro t n hn
    rw [List.foldl_cons, List.map_cons, List.sum_cons]
    have hlen := sliceAdd_length t (jumps.getD i 0) (dwellOf i)
    have := ih (sliceAdd t (jumps.getD i 0) (dwellOf i)) n (by omega)
    rw [this, sliceAdd_getD t _ _ n hn, hlen]
    ring

/-- Claim C3: dwell injection is a cumulative forward shift.  Sample `n` of
the adjusted timestamp array equals the original sample, plus the
whole-series roller offset when the roller is on, plus the dwell of every
jump `i` whose slice start is at or before `n` — so a sample past two jumps
receives both dwells and a sample before the first jump only the
whole-series offset. -/
theorem claim_C3 (t : List ℚ) (jumps : List ℤ) (dwellOf : ℕ → ℚ) (roller : Bool)
    (w : ℚ) (n : ℕ) (hn : n < t.length) :
    (applyDwell roller w t jumps dwellOf).getD n 0 =
      t.getD n 0 + (if roller then w else 0) +
        ((List.range jumps.length).map (fun i =>
          if pySliceStart (jumps.getD i 0) t.length ≤ n then dwellOf i else 0)).sum := by
  unfold applyDwell dwellAdjust
  by_cases hr : roller
  · rw [if_pos hr]
    have hlen : (t.map (fun a => a + w)).length = t.length := by simp
    rw [dwellAdjust_foldl_getD jumps dwellOf (List.range jumps.length)
      (t.map (fun a => a + w)) n (by omega), hlen, map_getD _ t n hn]
    simp [hr]
  · rw [if_neg hr]
    rw [dwellAdjust_foldl_getD jumps dwellOf (List.range jumps.length) t n hn]
    simp [hr]

/-- Witness for C3, the spec's concrete example: jumps at indices 5 and 12
with dwells 2 and 3 over a constant series at t = 20; the sample at index 4
stays 20, index 8 becomes 22, index 12 becomes 25. -/
theorem claim_C3_witness :
    (applyDwell false 0 (List.replicate 13 20) [5, 12]
      (fun i => if i = 0 then 2 else 3)).getD 4 0 = 20 ∧
    (applyDwell false 0 (List.replicate 13 20) [5, 12]
      (fun i => if i = 0 then 2 else 3)).getD 8 0 = 22 ∧
    (applyDwell false 0 (List.replicate 13 20) [5, 12]
      (fun i => if i = 0 then 2 else 3)).getD 12 0 = 25 := by
  have h4 := claim_C3 (List.replicate 13 20) [5, 12]
    (fun i => if i = 0 then 2 else 3) false 0 4 (by simp)
  have h8 := claim_C3 (List.replicate 13 20) [5, 12]
    (fun i => if i = 0 then 2 else 3) false 0 8 (by simp)
  have h12 := claim_C3 (List.replicate 13 20) [5, 12]
    (fun i => if i = 0 then 2 else 3) false 0 12 (by simp)
  rw [replicate_getD 20 13 4 (by omega)] at h4
  rw [replicate_getD 20 13 8 (by omega)] at h8
  rw [replicate_getD 20 13 12 (by omega)] at h12
  refine ⟨?_, ?_, ?_⟩
  · rw [h4]
    norm_num [List.range_succ, pySliceStart]
  · rw [h8]
    norm_num [List.range_succ, pySliceStart]
  · rw [h12]
    norm_num [List.range_succ, pySliceStart]

/-! ### Monotonicity lemmas -/

theorem chain'_rangeMap (f : ℕ → ℚ) (n : ℕ) (hf : ∀ k, k + 1 < n → f k ≤ f (k + 1)) :
    List.Chain' (· ≤ ·) ((List.range n).map f) := by
  rw [List.chain'_map]
  cases n with
  | zero => simp
  | succ m =>
    rw [List.chain'_range_succ]
    intro i hi
    exact hf i (by omega)

theorem linspace_chain (a b : ℚ) (n : ℕ) (hab : a ≤ b) :
    List.Chain' (· ≤ ·) (linspace a b n) := by
  unfold linspace
  apply chain'_rangeMap
  intro k hk
  have hn2 : 2 ≤ n := by omega
  have hnq : (2 : ℚ) ≤ (n : ℚ) := by exact_mod_cast hn2
  have hpos : (0 : ℚ) < (n : ℚ) - 1 := by linarith
  have hmul : (b - a) * (k : ℚ) ≤ (b - a) * ((k : ℚ) + 1) := by nlinarith
  have hdiv := (div_le_div_iff_of_pos_right hpos).mpr hmul
  push_cast
  linarith

theorem linspace_head (a b : ℚ) (n : ℕ) (hn : 0 < n) :
    (linspace a b n).head? = some a := by
  have h0 := linspace_getD_zero a b n hn
  have hlen : 0 < (linspace a b n).length := by rw [linspace_length]; exact hn
  cases hl : linspace a b n with
  | nil => rw [hl] at hlen; simp at hlen
  | cons c cs =>
    rw [hl] at h0
    simp at h0
    rw [List.head?_cons, h0]

theorem linspace_getLast (a b : ℚ) (n : ℕ) :
    (linspace a b (n + 2)).getLast? = some b := by
  rw [List.getLast?_eq_getElem?, linspace_length]
  have h2 : n + 2 - 1 = n + 1 := by omega
  rw [h2]
  unfold linspace
  rw [List.getElem?_map, List.getElem?_range (by omega)]
  have hq : (0 : ℚ) ≤ (n : ℚ) := Nat.cast_nonneg n
  have hne : (n : ℚ) + 2 - 1 ≠ 0 := by intro hcon; nlinarith
  simp only [Option.map_some', Option.some.injEq]
  push_cast
  field_simp
  ring

theorem eq_dropLast_append (l : List ℚ) (v : ℚ) (h : l.getLast? = some v) :
    l = l.dropLast ++ [v] := by
  induction l using List.reverseRecOn with
  | nil => simp at h
  | append_singleton as a ih =>
    rw [List.getLast?_concat] at h
    have hav := Option.some.inj h
    rw [List.dropLast_concat, hav]

theorem getD_of_getLast? (l : List ℚ) (v : ℚ) (h : l.getLast? = some v) :
    l.getD (l.length - 1) 0 = v := by
  have hdecomp := eq_dropLast_append l v h
  rw [hdecomp]
  have hlen : (l.dropLast ++ [v]).length = l.dropLast.length + 1 := by simp
  rw [hlen]
  have h2 : l.dropLast.length + 1 - 1 = l.dropLast.length := by omega
  rw [h2, List.getD_eq_getElem?_getD, List.getElem?_append_right (le_refl _)]
  simp

theorem getLast?_append_right (l1 l2 : List ℚ) (h : l2 ≠ []) :
    (l1 ++ l2).getLast? = l2.getLast? := by
  induction l2 using List.reverseRecOn with
  | nil => exact absurd rfl h
  | append_singleton as a ih =>
    rw [← List.append_assoc, List.getLast?_concat, List.getLast?_concat]

theorem mapAdd_chain (t : List ℚ) (w : ℚ) (hc : List.Chain' (· ≤ ·) t) :
    List.Chain' (· ≤ ·) (t.map (fun a => a + w)) := by
  rw [List.chain'_map]
  exact hc.imp (fun a b hab => add_le_add_right hab w)

theorem sliceAdd_chain (t : List ℚ) (k : ℤ) (d : ℚ) (hd : 0 ≤ d)
    (hc : List.Chain' (· ≤ ·) t) : List.Chain' (· ≤ ·) (sliceAdd t k d) := by
  unfold sliceAdd
  have hsplit := List.take_append_drop (pySliceStart k t.length) t
  rw [← hsplit] at hc
  rw [List.chain'_append] at hc
  obtain ⟨h1, h2, hlink⟩ := hc
  rw [List.chain'_append]
  refine ⟨h1, ?_, ?_⟩
  · rw [List.chain'_map]
    exact h2.imp (fun a b hab => add_le_add_right hab d)
  · intro a ha b hb
    rw [List.head?_map] at hb
    cases h0 : (t.drop (pySliceStart k t.length)).head? with
    | none => rw [h0] at hb; simp at hb
    | some b0 =>
      rw [h0] at hb
      have hb2 : b0 + d = b := by simpa using hb
      have hab0 := hlink a ha b0 (by rw [h0]; rfl)
      rw [← hb2]
      linarith

theorem dwellAdjust_foldl_chain (jumps : List ℤ) (dwellOf : ℕ → ℚ)
    (hd : ∀ i, 0 ≤ dwellOf i) :
    ∀ (l : List ℕ) (t : List ℚ), List.Chain' (· ≤ ·) t →
      List.Chain' (· ≤ ·)
        (l.foldl (fun t i => sliceAdd t (jumps.getD i 0) (dwellOf i)) t) := by
  intro l
  induction l with
  | nil => intro t hc; exact hc
  | cons i l ih =>
    intro t hc
    rw [List.foldl_cons]
    exact ih _ (sliceAdd_chain t _ _ (hd i) hc)

theorem dwellSelector_nonneg (cfg : Config)
    (hg : ∀ g ∈ cfg.layer_group_list, 0 ≤ g.interlayer_dwell) :
    ∀ i, 0 ≤ dwellSelector cfg i := by
  intro i
  have hdflt : 0 ≤ ((cfg.layer_group_list.head?.map (fun g => g.interlayer_dwell)).getD 0) := by
    cases hh : cfg.layer_group_list.head? with
    | none => simp
    | some g0 =>
      simp only [hh, Option.map_some', Option.getD_some]
      exact hg g0 (List.mem_of_mem_head? hh)
  unfold dwellSelector
  by_cases hflag : group_flag cfg
  · simp only [hflag, if_true]
    unfold dwellOfGroups
    cases hget : cfg.layer_group_list.get?
        (get_idx_from_ranges (i : ℤ) ((intervalsOf cfg).getD [])).toIndex with
    | none => exact hdflt
    | some g => exact hg g (List.get?_mem hget)
  · simp only [hflag, Bool.false_eq_true, if_false]
    exact hdflt

theorem getD_speed_pos (base : ℚ) (opt : Option ℚ) (hb : 0 < base)
    (ho : ∀ v, opt = some v → 0 < v) : 0 < opt.getD base := by
  cases hopt : opt with
  | none => simpa using hb
  | some v => simpa using ho v hopt

theorem groupSpeeds_pos {cfg : Config} {gi : PyRet} {a b : ℚ}
    (hsp : ∀ g ∈ cfg.layer_group_list,
      0 < g.infill.base_speed ∧ 0 < g.contour.base_speed ∧
      (∀ v, g.infill.output_speed = some v → 0 < v) ∧
      (∀ v, g.contour.output_speed = some v → 0 < v))
    (h : groupSpeeds cfg gi = some (a, b)) : 0 < a ∧ 0 < b := by
  unfold groupSpeeds at h
  cases hget : cfg.layer_group_list.get? gi.toIndex with
  | none => rw [hget] at h; simp at h
  | some g =>
    rw [hget] at h
    dsimp only at h
    obtain ⟨hib, hcb, hio, hco⟩ := hsp g (List.get?_mem hget)
    by_cases hz : pyEqZero gi
    · rw [if_pos hz] at h
      obtain ⟨ha, hb2⟩ := Prod.mk.inj (Option.some.inj h)
      rw [← ha, ← hb2]
      exact ⟨getD_speed_pos _ _ hib hio, getD_speed_pos _ _ hcb hco⟩
    · rw [if_neg hz] at h
      cases ho1 : g.infill.output_speed with
      | none => rw [ho1] at h; simp at h
      | some v1 =>
        cases ho2 : g.contour.output_speed with
        | none => rw [ho1, ho2] at h; simp at h
        | some v2 =>
          rw [ho1, ho2] at h
          dsimp only at h
          obtain ⟨ha, hb2⟩ := Prod.mk.inj (Option.some.inj h)
          rw [← ha, ← hb2]
          exact ⟨hio v1 ho1, hco v2 ho2⟩

theorem resolveSpeeds_okOut_pos {cfg : Config} {intervals : List (ℤ × ℤ)}
    {isp0 csp0 isp csp : ℚ} {j : ℕ}
    (hsp : ∀ g ∈ cfg.layer_group_list,
      0 < g.infill.base_speed ∧ 0 < g.contour.base_speed ∧
      (∀ v, g.infill.output_speed = some v → 0 < v) ∧
      (∀ v, g.contour.output_speed = some v → 0 < v))
    (h0 : 0 < isp0) (h0c : 0 < csp0)
    (h : resolveSpeeds cfg intervals isp0 csp0 j = SpeedOut.okOut isp csp) :
    0 < isp ∧ 0 < csp := by
  unfold resolveSpeeds at h
  by_cases hflag : group_flag cfg
  · rw [if_pos hflag] at h
    simp only [pyEqNegOne_eq_false, Bool.false_eq_true, if_false] at h
    cases hgs : groupSpeeds cfg (get_idx_from_ranges ((j : ℤ) - 2) intervals) with
    | none => rw [hgs] at h; simp at h
    | some p =>
      rw [hgs] at h
      cases p with
      | mk a b =>
        have hab := groupSpeeds_pos hsp hgs
        simp only [SpeedOut.okOut.injEq] at h
        rw [← h.1, ← h.2]
        exact hab
  · rw [if_neg hflag] at h
    simp only [SpeedOut.okOut.injEq] at h
    rw [← h.1, ← h.2]
    exact ⟨h0, h0c⟩

/-- Claim C4: with strictly positive configured speeds, non-negative dwell
durations, and a square root yielding non-negative values on non-negative
inputs, the timestamp column is non-decreasing after interpolation and
after dwell injection (the stages that follow never write `t_out`). -/
theorem claim_C4 (cfg : Config) (sqrtFn : ℚ → ℚ) (x y z f power : List ℚ)
    (z_posl : List ℕ) (out : InterpState)
    (hsqrt : ∀ q : ℚ, 0 ≤ q → 0 ≤ sqrtFn q)
    (hsp : ∀ g ∈ cfg.layer_group_list,
      0 < g.infill.base_speed ∧ 0 < g.contour.base_speed ∧
      (∀ v, g.infill.output_speed = some v → 0 < v) ∧
      (∀ v, g.contour.output_speed = some v → 0 < v))
    (hdwell : ∀ g ∈ cfg.layer_group_list, 0 ≤ g.interlayer_dwell)
    (_hw : 0 ≤ cfg.w_dwell)
    (hrun : interpRun cfg sqrtFn x y z f power z_posl = some out) :
    List.Chain' (· ≤ ·) (finalT cfg out.t_out (z_inc_arr cfg.interval z_posl)) := by
  obtain ⟨g0, intervals2, x0, y0, z1, hg0, -, -, -, -, hfold⟩ := interpRun_spec hrun
  obtain ⟨hib0, hcb0, hio0, hco0⟩ := hsp g0 (List.mem_of_mem_head? hg0)
  have hisp0 : 0 < g0.infill.output_speed.getD g0.infill.base_speed :=
    getD_speed_pos _ _ hib0 hio0
  have hcsp0 : 0 < g0.contour.output_speed.getD g0.contour.base_speed :=
    getD_speed_pos _ _ hcb0 hco0
  have hinv := interpFold_inv
    (interpStep cfg sqrtFn intervals2 (g0.infill.output_speed.getD g0.infill.base_speed)
      (g0.contour.output_speed.getD g0.contour.base_speed)
      (g0.infill.base_speed * 60) (g0.contour.base_speed * 60) x y f power z_posl)
    (fun s => List.Chain' (· ≤ ·) s.t_out ∧ s.t_out.getLast? = some s.time ∧
      (∀ v, s.vel = some v → 0 < v))
    (fun i2 s2 s2' hs2 hP => by
      obtain ⟨hchain2, hlast2, hvel2⟩ := hP
      obtain ⟨isp, csp, s1, hres, hseg, hcase⟩ := interpStep_cont_spec hs2
      obtain ⟨hisp, hcsp⟩ := resolveSpeeds_okOut_pos hsp hisp0 hcsp0 hres
      obtain ⟨xi1, xi, yi1, yi, fi, pi, v, -, -, -, -, -, -, hvif, hvz, hs1⟩ :=
        segAdvance_spec hseg
      have hv : 0 < v := by
        by_cases h1 : fi = g0.infill.base_speed * 60
        · rw [if_pos h1] at hvif
          rw [← Option.some.inj hvif]
          exact hisp
        · rw [if_neg h1] at hvif
          by_cases h2 : fi = g0.contour.base_speed * 60
          · rw [if_pos h2] at hvif
            rw [← Option.some.inj hvif]
            exact hcsp
          · rw [if_neg h2] at hvif
            exact hvel2 v hvif
      have hdt : 0 ≤ sqrtFn ((xi - xi1) ^ 2 + (yi - yi1) ^ 2) / v :=
        div_nonneg (hsqrt _ (by positivity)) (le_of_lt hv)
      have hdecomp := eq_dropLast_append s2.t_out s2.time hlast2
      have hchain_split : List.Chain' (· ≤ ·) (s2.t_out.dropLast ++ [s2.time]) := by
        rw [← hdecomp]
        exact hchain2
      rw [List.chain'_append] at hchain_split
      obtain ⟨hcdl, -, hlinkdl⟩ := hchain_split
      have hchain1 : List.Chain' (· ≤ ·) s1.t_out := by
        subst hs1
        dsimp only
        rw [List.chain'_append]
        refine ⟨hcdl, linspace_chain _ _ _ (by linarith), ?_⟩
        intro a ha b hb
        rw [linspace_head _ _ _ (by omega)] at hb
        have hb2 := Option.mem_def.mp hb
        have := hlinkdl a ha s2.time (by rfl)
        rw [← Option.some.inj hb2]
        exact this
      have hlast1 : s1.t_out.getLast? = some s1.time := by
        subst hs1
        dsimp only
        rw [getLast?_append_right _ _ (by
          intro hcon
          have := congrArg List.length hcon
          simp [linspace_length] at this)]
        exact linspace_getLast _ _ cfg.interval
      have hvel1 : ∀ v2, s1.vel = some v2 → 0 < v2 := by
        subst hs1
        dsimp only
        intro v2 hv2
        rw [← Option.some.inj hv2]
        exact hv
      have htime1 : s1.time = s2.time + sqrtFn ((xi - xi1) ^ 2 + (yi - yi1) ^ 2) / v := by
        subst hs1
        rfl
      rcases hcase with ⟨-, -, rfl⟩ | ⟨-, rfl⟩
      · -- jump appended
        have hc := getD_of_getLast? s1.t_out s1.time hlast1
        refine ⟨?_, ?_, ?_⟩
        · simp only [jumpAppend]
          have hrep : List.replicate 2 (s1.t_out.getD (s1.t_out.length - 1) 0) =
              [s1.time, s1.time] := by rw [hc]; rfl
          rw [hrep, List.chain'_append]
          refine ⟨hchain1, by simp, ?_⟩
          intro a ha b hb
          simp only [List.head?_cons, Option.mem_def, Option.some.injEq] at hb
          rw [hlast1] at ha
          have ha2 := Option.mem_def.mp ha
          rw [← Option.some.inj ha2, ← hb]
        · simp only [jumpAppend]
          have hrep : List.replicate 2 (s1.t_out.getD (s1.t_out.length - 1) 0) =
              [s1.time, s1.time] := by rw [hc]; rfl
          rw [hrep, getLast?_append_right _ _ (by simp)]
          rfl
        · simp only [jumpAppend]
          exact hvel1
      · exact ⟨hchain1, hlast1, hvel1⟩)
    (fun i2 s2 s2' hs2 _ =>
      absurd hs2 (interpStep_ne_brk _ _ _ _ _ _ _ _ _ _ _ _ i2 s2 s2'))
    _ _ _ hfold (by refine ⟨by simp, by simp, ?_⟩
                    intro v hv
                    simp at hv)
  unfold finalT
  by_cases hdw : cfg.dwell
  · rw [if_pos hdw]
    unfold applyDwell dwellAdjust
    apply dwellAdjust_foldl_chain _ _ (dwellSelector_nonneg cfg hdwell)
    by_cases hro : cfg.roller
    · rw [if_pos hro]
      exact mapAdd_chain _ _ hinv.1
    · rw [if_neg hro]
      exact hinv.1
  · rw [if_neg hdw]
    exact hinv.1

/-! ### The roller/dwell configuration check -/

/-- Claim C7: with the roller enabled, the run aborts before any gcode line
is consumed whenever dwell is disabled or `w_dwell` exceeds the interlayer
dwell of an applicable layer group (the abort is the same for every gcode
input); and the check passes when dwell is enabled and `w_dwell` is at or
below every applicable interlayer dwell. -/
theorem claim_C7 (cfg : Config) (hroller : cfg.roller = true)
    (hne : cfg.layer_group_list ≠ []) :
    ((cfg.dwell = false ∨ ∃ g ∈ applicableGroups cfg, g.interlayer_dwell < cfg.w_dwell) →
      ∃ e, ∀ gcode, runCheckAndParse cfg gcode = Except.error (Sum.inl e)) ∧
    ((cfg.dwell = true ∧ ∀ g ∈ applicableGroups cfg, cfg.w_dwell ≤ g.interlayer_dwell) →
      rollerDwellLogicCheck cfg = Except.ok ()) := by
  obtain ⟨g0, gs, hcons⟩ : ∃ g0 gs, cfg.layer_group_list = g0 :: gs := by
    cases hl : cfg.layer_group_list with
    | nil => exact absurd hl hne
    | cons a l => exact ⟨a, l, rfl⟩
  have hhead : cfg.layer_group_list.head? = some g0 := by rw [hcons]; rfl
  have hcheck_err : ∀ e, rollerDwellLogicCheck cfg = Except.error e →
      ∀ gcode, runCheckAndParse cfg gcode = Except.error (Sum.inl e) := by
    intro e he gcode
    unfold runCheckAndParse
    rw [he]
  constructor
  · intro hbad
    rcases hbad with hdis | ⟨g, hgmem, hglt⟩
    · refine ⟨CfgErr.dwellDisabled, hcheck_err _ ?_⟩
      unfold rollerDwellLogicCheck
      rw [hroller, hdis]
      rfl
    · by_cases hdw : cfg.dwell
      · refine ⟨CfgErr.wDwellExceedsDwell, hcheck_err _ ?_⟩
        unfold rollerDwellLogicCheck
        rw [hroller, hdw]
        simp only [if_true]
        by_cases hflag : group_flag cfg
        · rw [if_pos hflag]
          have hany : cfg.layer_group_list.any
              (fun g => g.interlayer_dwell < cfg.w_dwell) = true := by
            rw [List.any_eq_true]
            refine ⟨g, ?_, by simpa using hglt⟩
            unfold applicableGroups at hgmem
            rw [if_pos hflag] at hgmem
            exact hgmem
          rw [hany]
          rfl
        · rw [if_neg hflag]
          unfold applicableGroups at hgmem
          rw [if_neg hflag, hcons] at hgmem
          simp only [List.take_succ_cons, List.take_zero] at hgmem
          have hg0 : g = g0 := by simpa using hgmem
          rw [hhead]
          simp only [Option.map_some', Option.getD_some]
          rw [if_pos (by rw [← hg0]; exact hglt)]
      · refine ⟨CfgErr.dwellDisabled, hcheck_err _ ?_⟩
        unfold rollerDwellLogicCheck
        rw [hroller]
        simp only [if_true]
        rw [if_neg hdw]
  · intro ⟨hdw, hall⟩
    unfold rollerDwellLogicCheck
    rw [hroller, hdw]
    simp only [if_true]
    by_cases hflag : group_flag cfg
    · rw [if_pos hflag]
      have hany : cfg.layer_group_list.any
          (fun g => g.interlayer_dwell < cfg.w_dwell) = false := by
        rw [Bool.eq_false_iff]
        intro hcon
        rw [List.any_eq_true] at hcon
        obtain ⟨g, hgmem, hglt⟩ := hcon
        have := hall g (by unfold applicableGroups; rw [if_pos hflag]; exact hgmem)
        simp at hglt
        linarith
      rw [hany]
      rfl
    · rw [if_neg hflag]
      rw [hhead]
      simp only [Option.map_some', Option.getD_some]
      have hg0mem : g0 ∈ applicableGroups cfg := by
        unfold applicableGroups
        rw [if_neg hflag, hcons]
        simp
      rw [if_neg (by have := hall g0 hg0mem; linarith)]

/-! ### Flattened pair lists -/

theorem flatten_pairs_getD {α : Type} (d : α) :
    ∀ (n : ℕ) (g : ℕ → α × α) (k : ℕ), k < n →
      (((List.range n).map (fun i => [(g i).1, (g i).2])).flatten.getD (2 * k) d = (g k).1 ∧
        ((List.range n).map (fun i => [(g i).1, (g i).2])).flatten.getD (2 * k + 1) d = (g k).2) := by
  intro n
  induction n with
  | zero => intro g k hk; omega
  | succ m ih =>
    intro g k hk
    rw [List.range_succ_eq_map, List.map_cons, List.flatten_cons, List.map_map]
    cases k with
    | zero => constructor <;> rfl
    | succ k2 =>
      have h2 : 2 * (k2 + 1) = (2 * k2 + 1) + 1 := by ring
      rw [h2]
      have hgoal := ih (fun i => g (i + 1)) k2 (by omega)
      constructor
      · rw [List.cons_append, List.cons_append, List.nil_append,
          List.getD_cons_succ, List.getD_cons_succ]
        have := hgoal.1
        simpa [Function.comp] using this
      · rw [List.cons_append, List.cons_append, List.nil_append,
          List.getD_cons_succ, List.getD_cons_succ]
        have := hgoal.2
        simpa [Function.comp] using this

theorem flatten_pairs_length {α : Type} :
    ∀ (n : ℕ) (g : ℕ → α × α),
      (((List.range n).map (fun i => [(g i).1, (g i).2])).flatten).length = 2 * n := by
  intro n
  induction n with
  | zero => intro g; rfl
  | succ m ih =>
    intro g
    rw [List.range_succ, List.map_append, List.flatten_append, List.length_append, ih g]
    simp
    ring

theorem flatten_doubles_length {α : Type} (l : List α) :
    ((l.map (fun a => [a, a])).flatten).length = 2 * l.length := by
  induction l with
  | nil => rfl
  | cons a l ih =>
    rw [List.map_cons, List.flatten_cons, List.length_append, ih]
    simp
    ring

theorem flatten_doubles_getD {α : Type} (d : α) :
    ∀ (l : List α) (k : ℕ), k < l.length →
      ((l.map (fun a => [a, a])).flatten.getD (2 * k) d = l.getD k d ∧
        (l.map (fun a => [a, a])).flatten.getD (2 * k + 1) d = l.getD k d) := by
  intro l
  induction l with
  | nil => intro k hk; simp at hk
  | cons a l ih =>
    intro k hk
    rw [List.map_cons, List.flatten_cons]
    cases k with
    | zero => constructor <;> rfl
    | succ k2 =>
      have h2 : 2 * (k2 + 1) = (2 * k2 + 1) + 1 := by ring
      rw [h2]
      have hgoal := ih k2 (by simpa using hk)
      constructor
      · rw [List.cons_append, List.cons_append, List.nil_append,
          List.getD_cons_succ, List.getD_cons_succ, List.getD_cons_succ]
        exact hgoal.1
      · rw [List.cons_append, List.cons_append, List.nil_append,
          List.getD_cons_succ, List.getD_cons_succ, List.getD_cons_succ]
        exact hgoal.2

/-- Pointwise content of a successful `mapM` over `Option`. -/
theorem mapM_pyGet_spec (fop : ℤ → Option ℚ) :
    ∀ (l : List ℤ) (res : List ℚ), l.mapM fop = some res →
      res.length = l.length ∧
        ∀ k, k < l.length → fop (l.getD k 0) = some (res.getD k 0) := by
  intro l
  induction l with
  | nil =>
    intro res h
    simp only [List.mapM_nil, pure, Option.some.injEq] at h
    subst h
    exact ⟨rfl, fun k hk => by simp at hk⟩
  | cons i l ih =>
    intro res h
    rw [List.mapM_cons] at h
    cases hp : fop i with
    | none => rw [hp] at h; simp at h
    | some v =>
      rw [hp] at h
      cases hm : l.mapM fop with
      | none => rw [hm] at h; simp at h
      | some vs =>
        rw [hm] at h
        simp only [Option.bind_eq_bind, Option.some_bind, pure, Option.some.injEq] at h
        subst h
        obtain ⟨hlen, hpt⟩ := ih vs hm
        refine ⟨by simp [hlen], ?_⟩
        intro k hk
        cases k with
        | zero => simpa using hp
        | succ k2 =>
          rw [List.getD_cons_succ, List.getD_cons_succ]
          exact hpt k2 (by simpa using hk)

/-- Unfolding a successful `buildRoller`. -/
theorem buildRoller_spec {t z : List ℚ} {jumps : List ℤ} {tr zr : List ℚ}
    (h : buildRoller t z jumps = some (tr, zr)) :
    ∃ t0 trj zrj lastJ tLast z0,
      pyGet t 0 = some t0 ∧
      jumps.mapM (fun i => pyGet t i) = some trj ∧
      jumps.mapM (fun i => pyGet z (i + 2)) = some zrj ∧
      jumps.getLast? = some lastJ ∧
      pyGet t lastJ = some tLast ∧
      pyGet z 0 = some z0 ∧
      tr = (t0 :: trj) ++ [tLast] ∧ zr = z0 :: zrj := by
  unfold buildRoller at h
  cases h0 : pyGet t 0 with
  | none => rw [h0] at h; simp at h
  | some t0 =>
  rw [h0] at h
  cases h1 : jumps.mapM (fun i => pyGet t i) with
  | none => rw [h1] at h; simp at h
  | some trj =>
  rw [h1] at h
  cases h2 : jumps.mapM (fun i => pyGet z (i + 2)) with
  | none => rw [h2] at h; simp at h
  | some zrj =>
  rw [h2] at h
  cases h3 : jumps.getLast? with
  | none => rw [h3] at h; simp at h
  | some lastJ =>
  rw [h3] at h
  simp only [Option.bind_eq_bind, Option.some_bind] at h
  cases h4 : pyGet t lastJ with
  | none => rw [h4] at h; simp at h
  | some tLast =>
  rw [h4] at h
  cases h5 : pyGet z 0 with
  | none => rw [h5] at h; simp at h
  | some z0 =>
  rw [h5] at h
  simp only [Option.bind_eq_bind, Option.some_bind, Option.some.injEq] at h
  obtain ⟨htr, hzr⟩ := Prod.mk.inj h
  exact ⟨t0, trj, zrj, lastJ, tLast, z0, rfl, rfl, rfl, rfl, h4, rfl, htr.symm, hzr.symm⟩

theorem getD_append_lt {α : Type} (l l2 : List α) (d : α) (k : ℕ) (hk : k < l.length) :
    (l ++ l2).getD k d = l.getD k d := by
  rw [List.getD_eq_getElem?_getD, List.getElem?_append, if_pos hk,
    List.getD_eq_getElem?_getD]

/-- Claim C8: with dwell and roller on and at least one layer jump, the
wiper arrays pair every anchor (the series start and each jump, the jump
anchor being the dwell-shifted `t_out` value at the jump's index) as
`(anchor - w_dwell, anchor)`; the writer emits those pairs as alternating
engaged/retracted rows starting engaged; the time and z arrays have equal
length `2*jumps + 2`; and the final pair is the last jump's pair, not a
duplicate of a nonexistent further anchor. -/
theorem claim_C8 (t z : List ℚ) (jumps : List ℤ) (w : ℚ) (tr zr : List ℚ)
    (hm : 1 ≤ jumps.length)
    (hbuild : buildRoller t z jumps = some (tr, zr)) :
    tr.length = jumps.length + 2 ∧
    zr.length = jumps.length + 1 ∧
    ((buildWiper tr zr w).2).length = ((buildWiper tr zr w).1).length ∧
    ((buildWiper tr zr w).1).length = 2 * jumps.length + 2 ∧
    (buildWiper tr zr w).1 =
      ((List.range (jumps.length + 1)).map
        (fun i => [some (tr.getD i 0 - w), some (tr.getD i 0)])).flatten ∧
    pyGet t 0 = some (tr.getD 0 0) ∧
    pyGet z 0 = some (zr.getD 0 0) ∧
    (∀ k, k < jumps.length →
      pyGet t (jumps.getD k 0) = some (tr.getD (k + 1) 0) ∧
      pyGet z (jumps.getD k 0 + 2) = some (zr.getD (k + 1) 0)) ∧
    (∀ k, k < jumps.length + 1 →
      (rollerRows (buildWiper tr zr w).1 (buildWiper tr zr w).2).getD (2 * k) (none, 0, 0)
        = (some (tr.getD k 0 - w), zr.getD k 0, 1) ∧
      (rollerRows (buildWiper tr zr w).1 (buildWiper tr zr w).2).getD (2 * k + 1) (none, 0, 0)
        = (some (tr.getD k 0), zr.getD k 0, 0)) := by
  obtain ⟨t0, trj, zrj, lastJ, tLast, z0, h0, h1, h2, -, -, h5, htr, hzr⟩ :=
    buildRoller_spec hbuild
  obtain ⟨hlen1, hpt1⟩ := mapM_pyGet_spec (fun i => pyGet t i) jumps trj h1
  obtain ⟨hlen2, hpt2⟩ := mapM_pyGet_spec (fun i => pyGet z (i + 2)) jumps zrj h2
  have htrlen : tr.length = jumps.length + 2 := by
    rw [htr]
    simp [hlen1]
  have hzrlen : zr.length = jumps.length + 1 := by
    rw [hzr]
    simp [hlen2]
  have htr0 : tr.getD 0 0 = t0 := by rw [htr]; rfl
  have hzr0 : zr.getD 0 0 = z0 := by rw [hzr]; rfl
  have htrk : ∀ k, k < jumps.length → tr.getD (k + 1) 0 = trj.getD k 0 := by
    intro k hk
    rw [htr, List.cons_append, List.getD_cons_succ, getD_append_lt trj [tLast] 0 k (by omega)]
  have hzrk : ∀ k, k < jumps.length → zr.getD (k + 1) 0 = zrj.getD k 0 := by
    intro k hk
    rw [hzr, List.getD_cons_succ]
  -- the wiper time array
  have hn1 : tr.length - 1 = jumps.length + 1 := by omega
  have htw : (buildWiper tr zr w).1 =
      ((List.range (jumps.length + 1)).map
        (fun i => [some (tr.getD i 0 - w), some (tr.getD i 0)])).flatten := by
    unfold buildWiper
    dsimp only
    rw [htrlen]
    have hsplit : List.range (jumps.length + 2) =
        List.range (jumps.length + 1) ++ [jumps.length + 1] := List.range_succ _
    rw [hsplit, List.map_append, List.flatten_append]
    have hcongr : (List.range (jumps.length + 1)).map
        (fun i => if i < jumps.length + 2 - 1
          then [some (tr.getD i 0 - w), some (tr.getD i 0)]
          else [(none : Option ℚ), none]) =
        (List.range (jumps.length + 1)).map
          (fun i => [some (tr.getD i 0 - w), some (tr.getD i 0)]) := by
      apply List.map_congr_left
      intro i hi
      rw [List.mem_range] at hi
      rw [if_pos (by omega)]
    rw [hcongr]
    have hlast : ([jumps.length + 1].map
        (fun i => if i < jumps.length + 2 - 1
          then [some (tr.getD i 0 - w), some (tr.getD i 0)]
          else [(none : Option ℚ), none])).flatten = [none, none] := by
      simp
    rw [hlast]
    have hAlen : (((List.range (jumps.length + 1)).map
        (fun i => [some (tr.getD i 0 - w), some (tr.getD i 0)])).flatten).length =
        2 * (jumps.length + 1) :=
      flatten_pairs_length (jumps.length + 1)
        (fun i => (some (tr.getD i 0 - w), some (tr.getD i 0)))
    rw [List.length_append, hAlen]
    have harith : 2 * (jumps.length + 1) + [(none : Option ℚ), none].length - 2 =
        2 * (jumps.length + 1) := by simp
    rw [harith, ← hAlen, List.take_left]
  have hzw : (buildWiper tr zr w).2 = (zr.map (fun a => [a, a])).flatten := rfl
  have htwlen : ((buildWiper tr zr w).1).length = 2 * jumps.length + 2 := by
    rw [htw, flatten_pairs_length (jumps.length + 1)
      (fun i => (some (tr.getD i 0 - w), some (tr.getD i 0)))]
    ring
  have hzwlen : ((buildWiper tr zr w).2).length = 2 * jumps.length + 2 := by
    rw [hzw, flatten_doubles_length, hzrlen]
    ring
  refine ⟨htrlen, hzrlen, by rw [htwlen, hzwlen], htwlen, htw, ?_, ?_, ?_, ?_⟩
  · rw [htr0]; exact h0
  · rw [hzr0]; exact h5
  · intro k hk
    refine ⟨?_, ?_⟩
    · rw [htrk k hk]
      exact hpt1 k hk
    · rw [hzrk k hk]
      exact hpt2 k hk
  · intro k hk
    have h2k : 2 * k < ((buildWiper tr zr w).2).length := by omega
    have h2k1 : 2 * k + 1 < ((buildWiper tr zr w).2).length := by omega
    have hrow0 := rangeMap_getD
      (fun i => ((buildWiper tr zr w).1.getD i none, (buildWiper tr zr w).2.getD i 0,
        if i % 2 = 0 then (1 : ℚ) else 0))
      ((none : Option ℚ), (0 : ℚ), (0 : ℚ)) ((buildWiper tr zr w).2).length (2 * k) h2k
    have hrow1 := rangeMap_getD
      (fun i => ((buildWiper tr zr w).1.getD i none, (buildWiper tr zr w).2.getD i 0,
        if i % 2 = 0 then (1 : ℚ) else 0))
      ((none : Option ℚ), (0 : ℚ), (0 : ℚ)) ((buildWiper tr zr w).2).length (2 * k + 1) h2k1
    have htwp := flatten_pairs_getD (none : Option ℚ) (jumps.length + 1)
      (fun i => (some (tr.getD i 0 - w), some (tr.getD i 0))) k hk
    have hzwp := flatten_doubles_getD (0 : ℚ) zr k (by omega)
    constructor
    · unfold rollerRows
      rw [hrow0]
      dsimp only
      rw [show (buildWiper tr zr w).1.getD (2 * k) none =
        some (tr.getD k 0 - w) by rw [htw]; exact htwp.1]
      rw [show (buildWiper tr zr w).2.getD (2 * k) 0 = zr.getD k 0 by
        rw [hzw]; exact hzwp.1]
      rw [if_pos (by omega)]
    · unfold rollerRows
      rw [hrow1]
      dsimp only
      rw [show (buildWiper tr zr w).1.getD (2 * k + 1) none =
        some (tr.getD k 0) by rw [htw]; exact htwp.2]
      rw [show (buildWiper tr zr w).2.getD (2 * k + 1) 0 = zr.getD k 0 by
        rw [hzw]; exact hzwp.2]
      rw [if_neg (by omega)]

end AMPES

namespace AMPES

/-! ## The NOT_FOUND truncation claim -/

/-- Claim C1 (the code violates it): `get_idx_from_ranges` returns the
Python bool `False` when no range matches (never `-1`), both callers test
the result with `== -1`, and Python's `False == -1` is false — so the
reading loop's truncation `break` (AMPES.py:340-341) and the interpolation
loop's `break` (AMPES.py:391-392) are dead code.  Concretely, under a
grouped configuration whose single range covers layer indices 0..2, a
gcode whose fourth Z line reaches layer index 3 (out of range) is read to
the very end — the F and X lines that follow the out-of-range Z are still
consumed into the parse state — instead of the file being truncated at
that Z line as the spec asserts.  The last conjunct shows the
interpolation loop, likewise, can never stop early with its `break`. -/
theorem claim_C1 :
    (∀ (num : ℤ) (ranges : List (ℤ × ℤ)),
      pyEqNegOne (get_idx_from_ranges num ranges) = false) ∧
    get_idx_from_ranges 3 [(0, 3)] = PyRet.pyFalse ∧
    parseGcode cfgGrouped gcodeC1 = Except.ok parseOutC1 ∧
    parseOutC1.z.length = 4 ∧ parseOutC1.x = [1] ∧ parseOutC1.power = [0] ∧
    (∀ (cfg : Config) (sqrtFn : ℚ → ℚ) (intervals : List (ℤ × ℤ))
      (isp0 csp0 infill_f contour_f : ℚ) (x y f power : List ℚ) (z_posl : List ℕ)
      (i : ℕ) (s s' : InterpState),
      interpStep cfg sqrtFn intervals isp0 csp0 infill_f contour_f x y f power z_posl i s
        ≠ StepRes.brk s') := by
  refine ⟨fun num ranges => pyEqNegOne_eq_false _, rfl, ?_, rfl, rfl, rfl,
    fun cfg sqrtFn intervals isp0 csp0 infill_f contour_f x y f power z_posl i s s' =>
      interpStep_ne_brk cfg sqrtFn intervals isp0 csp0 infill_f contour_f x y f power
        z_posl i s s'⟩
  have h1 : (if group_flag cfgGrouped then intervalsOf cfgGrouped else some [])
      = some [(0, 3)] := by decide
  unfold parseGcode
  rw [show cfgGrouped.layer_group_list.head?
      = some ⟨some (1, 2), ⟨1, none, 5⟩, ⟨2, none, 3⟩, 10⟩ from rfl]
  rw [h1]
  norm_num [parseLines, tokLoop, classifyPower, hasX, hasE, isXTok, isETok,
    initParseState, get_idx_from_ranges, getIdxGo, inPyRange, pyEqNegOne, PyRet.toInt,
    gcodeC1, parseOutC1, cfgGrouped, group_flag]

/-- Witness for C1: the dead `== -1` test and the never-break interpolation
step, at concrete inputs. -/
theorem claim_C1_witness :
    pyEqNegOne (get_idx_from_ranges 3 [(0, 3)]) = false ∧
    interpStep cfgSingle sqrtId [] 1 2 60 120 [0, 1] [0, 0] [60, 60] [0, 1] [] 1 s0W
      ≠ StepRes.brk s0W :=
  ⟨claim_C1.1 3 [(0, 3)],
   claim_C1.2.2.2.2.2.2 cfgSingle sqrtId [] 1 2 60 120 [0, 1] [0, 0] [60, 60] [0, 1] [] 1
     s0W s0W⟩

/-! ## The z_inc_arr off-by-one -/

/-- Counterexample for C2 as stated: on a three-vertex input with one layer
jump, the first of the two appended jump points lands at output index 2
(as `jump_idxs` records), but `z_inc_arr` holds 3 — the index of the
*second* appended point, not the first. -/
theorem claim_C2_counterexample :
    interpRun cfgSingle sqrtId [0, 1, 2] [0, 0, 0] [9, 5] [60, 60, 60] [0, 1, 1] [0, 0, 2]
      = some outOneJump ∧
    outOneJump.jump_idxs = [2] ∧
    z_inc_arr cfgSingle.interval [0, 0, 2] = [3] ∧
    (z_inc_arr cfgSingle.interval [0, 0, 2]).getD 0 0
      ≠ ((outOneJump.jump_idxs.getD 0 0 : ℕ) : ℤ) := by
  refine ⟨?_, rfl, by decide, by decide⟩
  norm_num [interpRun, interpFold, interpStep, resolveSpeeds, segAdvance, jumpAppend,
    group_flag, intervalsOf, groupSpeeds, linspace, cfgSingle, sqrtId, outOneJump,
    List.range_succ, List.replicate_succ, pyEqNegOne, get_idx_from_ranges, getIdxGo,
    PyRet.toInt, Option.bind_eq_bind]

/-- Witness for the amended C2 on the three-vertex one-jump run. -/
theorem claim_C2_witness :
    z_inc_arr cfgSingle.interval [0, 0, 2]
      = outOneJump.jump_idxs.map (fun (n : ℕ) => (n : ℤ) + 1) :=
  claim_C2_amended cfgSingle sqrtId [0, 1, 2] [0, 0, 0] [9, 5] [60, 60, 60] [0, 1, 1]
    [0, 0, 2] outOneJump
    (by norm_num [interpRun, interpFold, interpStep, resolveSpeeds, segAdvance, jumpAppend,
      group_flag, intervalsOf, groupSpeeds, linspace, cfgSingle, sqrtId, outOneJump,
      List.range_succ, List.replicate_succ, pyEqNegOne, get_idx_from_ranges, getIdxGo,
      PyRet.toInt, Option.bind_eq_bind])
    (by decide) (by decide)
    (by intro j2 h2 hlt
        simp only [List.length_cons, List.length_nil] at hlt
        omega)
    (by decide)

/-! ## Remaining witnesses -/

/-- Witness for C4: the dwell-adjusted timestamp column of the one-jump run
is non-decreasing. -/
theorem claim_C4_witness :
    List.Chain' (· ≤ ·) (finalT cfgSingle outOneJump.t_out
      (z_inc_arr cfgSingle.interval [0, 0, 2])) :=
  claim_C4 cfgSingle sqrtId [0, 1, 2] [0, 0, 0] [9, 5] [60, 60, 60] [0, 1, 1] [0, 0, 2]
    outOneJump
    (fun q hq => hq)
    (by intro g hg
        rw [show cfgSingle.layer_group_list
            = [⟨none, ⟨1, none, 5⟩, ⟨2, none, 3⟩, 10⟩] from rfl] at hg
        simp only [List.mem_singleton] at hg
        subst hg
        exact ⟨by show (0 : ℚ) < 1; norm_num, by show (0 : ℚ) < 2; norm_num,
          fun v hv => Option.noConfusion hv, fun v hv => Option.noConfusion hv⟩)
    (by intro g hg
        rw [show cfgSingle.layer_group_list
            = [⟨none, ⟨1, none, 5⟩, ⟨2, none, 3⟩, 10⟩] from rfl] at hg
        simp only [List.mem_singleton] at hg
        subst hg
        show (0 : ℚ) ≤ 10
        norm_num)
    (by show (0 : ℚ) ≤ 2; norm_num)
    (by norm_num [interpRun, interpFold, interpStep, resolveSpeeds, segAdvance, jumpAppend,
      group_flag, intervalsOf, groupSpeeds, linspace, cfgSingle, sqrtId, outOneJump,
      List.range_succ, List.replicate_succ, pyEqNegOne, get_idx_from_ranges, getIdxGo,
      PyRet.toInt, Option.bind_eq_bind])

/-- Witness for C5: the geometry of the two appended points of a concrete
layer-jump step. -/
theorem claim_C5_witness :
    (4 ≤ outJumpStep.x_out.length ∧
      outJumpStep.x_out.getD (outJumpStep.x_out.length - 2) 0
        = outJumpStep.x_out.getD (outJumpStep.x_out.length - 3) 0 ∧
      outJumpStep.x_out.getD (outJumpStep.x_out.length - 1) 0
        = outJumpStep.x_out.getD (outJumpStep.x_out.length - 3) 0) ∧
    (4 ≤ outJumpStep.y_out.length ∧
      outJumpStep.y_out.getD (outJumpStep.y_out.length - 2) 0
        = outJumpStep.y_out.getD (outJumpStep.y_out.length - 3) 0 ∧
      outJumpStep.y_out.getD (outJumpStep.y_out.length - 1) 0
        = outJumpStep.y_out.getD (outJumpStep.y_out.length - 3) 0) ∧
    (outJumpStep.power_out.getD (outJumpStep.power_out.length - 2) 0 = 0 ∧
      outJumpStep.power_out.getD (outJumpStep.power_out.length - 1) 0 = 0) ∧
    (4 ≤ outJumpStep.z_out.length ∧
      outJumpStep.z_out.getD (outJumpStep.z_out.length - 2) 0
        = outJumpStep.z_out.getD (outJumpStep.z_out.length - 3) 0 ∧
      outJumpStep.z_out.getD (outJumpStep.z_out.length - 1) 0
        = outJumpStep.z_out.getD (outJumpStep.z_out.length - 2) 0 + cfgSingle.layer_height) ∧
    (4 ≤ outJumpStep.t_out.length ∧
      outJumpStep.t_out.getD (outJumpStep.t_out.length - 2) 0
        = outJumpStep.t_out.getD (outJumpStep.t_out.length - 3) 0 ∧
      outJumpStep.t_out.getD (outJumpStep.t_out.length - 1) 0
        = outJumpStep.t_out.getD (outJumpStep.t_out.length - 3) 0) :=
  claim_C5 cfgSingle sqrtId [] 1 2 60 120 [0, 1] [0, 0] [60, 60] [0, 1] [0, 0, 2] 1 s0W
    outJumpStep
    (by norm_num [interpStep, resolveSpeeds, segAdvance, jumpAppend,
      group_flag, groupSpeeds, linspace, cfgSingle, sqrtId, s0W, outJumpStep,
      List.range_succ, List.replicate_succ, pyEqNegOne, get_idx_from_ranges, getIdxGo,
      PyRet.toInt, Option.bind_eq_bind])
    (by decide)

/-- Witness for C7: on `cfgSingle` (roller and dwell on, `w_dwell = 2` at
or below the group's interlayer dwell 10) the logic check passes. -/
theorem claim_C7_witness :
    rollerDwellLogicCheck cfgSingle = Except.ok () := by
  have h := claim_C7 cfgSingle rfl
    (by rw [show cfgSingle.layer_group_list
          = [⟨none, ⟨1, none, 5⟩, ⟨2, none, 3⟩, 10⟩] from rfl]
        simp)
  exact h.2 ⟨rfl, by
    intro g hg
    rw [show applicableGroups cfgSingle
        = [⟨none, ⟨1, none, 5⟩, ⟨2, none, 3⟩, 10⟩] from rfl] at hg
    simp only [List.mem_singleton] at hg
    subst hg
    show (2 : ℚ) ≤ 10
    norm_num⟩

/-- Witness for C8: the array shapes and anchor values of a concrete
roller build with one recorded jump. -/
theorem claim_C8_witness :
    ([(0 : ℚ), 2, 2]).length = ([(2 : ℤ)]).length + 2 ∧
    ([(5 : ℚ), 7]).length = ([(2 : ℤ)]).length + 1 ∧
    ((buildWiper [0, 2, 2] [5, 7] 1).2).length = ((buildWiper [0, 2, 2] [5, 7] 1).1).length ∧
    ((buildWiper [0, 2, 2] [5, 7] 1).1).length = 2 * ([(2 : ℤ)]).length + 2 ∧
    pyGet [0, 1, 2, 3, 4] 0 = some (([(0 : ℚ), 2, 2]).getD 0 0) ∧
    pyGet [5, 5, 6, 6, 7] 0 = some (([(5 : ℚ), 7]).getD 0 0) := by
  have h := claim_C8 [0, 1, 2, 3, 4] [5, 5, 6, 6, 7] [2] 1 [0, 2, 2] [5, 7]
    (by decide) (by decide)
  exact ⟨h.1, h.2.1, h.2.2.1, h.2.2.2.1, h.2.2.2.2.2.1, h.2.2.2.2.2.2.1⟩

/-- Witness for the amended C9: a concrete non-jump step grows the series
by `interval + 1` points, and the finished two-vertex run has length
`1 + segments*(interval+1) + 2*jumps`. -/
theorem claim_C9_witness :
    outNoJump.t_out.length = s0W.t_out.length + (cfgSingle.interval + 1) ∧
    outNoJump.t_out.length
      = 1 + (([(0 : ℚ), 1]).length - 1) * (cfgSingle.interval + 1)
        + 2 * outNoJump.jump_idxs.length := by
  have h := claim_C9_amended cfgSingle sqrtId [] 1 2 60 120 [0, 1] [0, 0] [9, 5] [60, 60]
    [0, 1] [] 1 s0W outNoJump outNoJump
    (by norm_num [interpStep, resolveSpeeds, segAdvance, jumpAppend,
      group_flag, groupSpeeds, linspace, cfgSingle, sqrtId, s0W, outNoJump,
      List.range_succ, List.replicate_succ, pyEqNegOne, get_idx_from_ranges, getIdxGo,
      PyRet.toInt, Option.bind_eq_bind])
    (by decide) (by decide)
    (by norm_num [interpRun, interpFold, interpStep, resolveSpeeds, segAdvance, jumpAppend,
      group_flag, intervalsOf, groupSpeeds, linspace, cfgSingle, sqrtId, s0W, outNoJump,
      List.range_succ, List.replicate_succ, pyEqNegOne, get_idx_from_ranges, getIdxGo,
      PyRet.toInt, Option.bind_eq_bind])
  exact ⟨h.2.1, h.2.2.2⟩

/-- Witness for C10: the five parallel arrays of the finished two-vertex
run have equal length and are nonempty. -/
theorem claim_C10_witness :
    outNoJump.x_out.length = outNoJump.t_out.length ∧
    outNoJump.y_out.length = outNoJump.t_out.length ∧
    outNoJump.z_out.length = outNoJump.t_out.length ∧
    outNoJump.power_out.length = outNoJump.t_out.length ∧
    outNoJump.t_out ≠ [] :=
  (claim_C10 cfgSingle sqrtId [0, 1] [0, 0] [9, 5] [60, 60] [0, 1] [] outNoJump
    (by norm_num [interpRun, interpFold, interpStep, resolveSpeeds, segAdvance, jumpAppend,
      group_flag, intervalsOf, groupSpeeds, linspace, cfgSingle, sqrtId, s0W, outNoJump,
      List.range_succ, List.replicate_succ, pyEqNegOne, get_idx_from_ranges, getIdxGo,
      PyRet.toInt, Option.bind_eq_bind])).1

end AMPES
